import Mathlib

/-!
# id3v2: frame-level codec

A shallow embedding of the frame-level parts of the `id3v2` package
(`unsynchronised_lyrics_frame.go`, `comment_sequence.go`, `parse.go`,
`util/reader.go`) together with the properties proved about them.

Conventions of the embedding:

* a Go `string` or `[]byte` is the list of its bytes (`Bytes`), a byte being a
  natural number;
* an `io.Reader` over a finite in-memory source is the list of bytes it has not
  delivered yet; reading returns the data and the remaining list;
* a Go `(value, error)` pair is an `Except`, or a record with an `err` field
  when the code returns data together with an error.
-/

set_option autoImplicit false

namespace Id3v2

/-- A Go byte slice or string, as the list of its bytes. -/
abbrev Bytes := List Nat

/-- The error values the embedded code distinguishes. -/
inductive Error where
  /-- The value `io.EOF`. -/
  | EOF
  /-- The value `errBlankFrame` of `parse.go`. -/
  | BlankFrame
  /-- The value `util.ErrInvalidSizeFormat`. -/
  | InvalidSizeFormat
  /-- The value `bufio.ErrBufferFull`. -/
  | BufferFull
  /-- The error built in `WriteTo` when the language code is not three bytes long. -/
  | LanguageLength
  /-- The value `errNoTag`. -/
  | NoTag
  /-- The error `parseTag` builds for a nil reader. -/
  | NilReader
  /-- The error `parseTag` builds around a failure of `parseHeader`. -/
  | TagHeader
  /-- The error `parseTag` builds for a version below 3. -/
  | UnsupportedVersion (version : Nat)
  /-- The value `io.ErrShortWrite`. -/
  | ShortWrite
  /-- Any other error value handed back by a collaborator. -/
  | other (code : Nat)
  deriving DecidableEq, Repr

/-- Equality of Go results is decidable when it is on both components. -/
instance instDecidableEqExcept {ε α : Type} [DecidableEq ε] [DecidableEq α] :
    DecidableEq (Except ε α) := fun a b =>
  match a, b with
  | .error e₁, .error e₂ =>
    if h : e₁ = e₂ then isTrue (by rw [h]) else isFalse (fun h2 => h (by cases h2; rfl))
  | .ok a₁, .ok a₂ =>
    if h : a₁ = a₂ then isTrue (by rw [h]) else isFalse (fun h2 => h (by cases h2; rfl))
  | .error _, .ok _ => isFalse (fun h => by cases h)
  | .ok _, .error _ => isFalse (fun h => by cases h)

/-! ## Text encodings -/

/-- Modelled from the spec: the type `Encoding` is declared in a file that is
not part of the sources at hand. The spec gives it a one-byte key and a
terminator of one byte (single-byte charsets) or two bytes (16-bit charsets). -/
structure Encoding where
  Key : Nat
  TerminationBytes : Bytes
  deriving DecidableEq, Repr

/-- Modelled from the spec: the single-byte Latin-1 style charset, key 0. -/
def EncodingISO : Encoding := ⟨0, [0]⟩

/-- Modelled from the spec: a Unicode variant with a 2-byte terminator, key 1. -/
def EncodingUTF16 : Encoding := ⟨1, [0, 0]⟩

/-- Modelled from the spec: a Unicode variant with a 2-byte terminator, key 2. -/
def EncodingUTF16BE : Encoding := ⟨2, [0, 0]⟩

/-- Modelled from the spec: the Unicode variant with a 1-byte terminator, key 3. -/
def EncodingUTF8 : Encoding := ⟨3, [0]⟩

/-- Modelled from the spec: the closed set of the four legal encodings. -/
def encodings : List Encoding :=
  [EncodingISO, EncodingUTF16, EncodingUTF16BE, EncodingUTF8]

/-- Modelled from the spec: `getEncoding` is not part of the sources at hand.
Key values 0 to 3 map to the four legal encodings. The spec is silent on larger
keys; the model sends them to the last encoding and no theorem relies on it. -/
def getEncoding (key : Nat) : Encoding :=
  match key with
  | 0 => EncodingISO
  | 1 => EncodingUTF16
  | 2 => EncodingUTF16BE
  | _ => EncodingUTF8

/-- Modelled from the spec: the transcoding functions `encodeWriteText` and
`decodeText` are not part of the sources at hand and rest on an external
charset library. The spec describes them as pure functions between a string and
its encoded bytes, so they are taken as a pair of functions per encoding. -/
structure TextCodec where
  encode : Encoding → Bytes → Bytes
  decode : Encoding → Bytes → Bytes

/-- The codec that leaves the bytes of a string as they are. A Go string holds
UTF-8 text, so this is what transcoding to and from the UTF-8 encoding does. -/
def plainCodec : TextCodec := ⟨fun _ s => s, fun _ s => s⟩

/-- Modelled from the spec: `encodedSize` is not part of the sources at hand.
It is the number of bytes the encoder produces for the string. -/
def encodedSize (c : TextCodec) (src : Bytes) (enc : Encoding) : Nat :=
  (c.encode enc src).length

/-! ## Reading primitives used by the lyrics-frame parser

The parser in `unsynchronised_lyrics_frame.go` calls `ReadByte`, `Next`,
`ReadTillDelims` and `Discard` on a pooled `util.Reader`. Of these only
`ReadByte` is defined in `util/reader.go` as it is at hand. -/

/-- The method `Reader.ReadByte`: one byte, or `io.EOF` when none is left. -/
def Reader.ReadByte (rd : Bytes) : Except Error (Nat × Bytes) :=
  match rd with
  | [] => .error Error.EOF
  | b :: rest => .ok (b, rest)

/-- Modelled from the spec: `Next(n)` of the pooled reader, the next `n` bytes
(a fixed-width field) or end-of-stream when fewer remain. -/
def Reader.Next (n : Nat) (rd : Bytes) : Except Error (Bytes × Bytes) :=
  if rd.length < n then .error Error.EOF else .ok (rd.take n, rd.drop n)

/-- Modelled from the spec: `Discard(n)` of the pooled reader, skipping `n`
bytes or reporting end-of-stream when fewer remain. -/
def Reader.Discard (n : Nat) (rd : Bytes) : Except Error (Nat × Bytes) :=
  if rd.length < n then .error Error.EOF else .ok (n, rd.drop n)

/-- The scan behind `ReadTillDelims`: `k` counts the bytes still to pass before
the next position at which a terminator may start. The result is the data in
front of the terminator and the input from the terminator on. -/
def scanAligned (delims : Bytes) : Nat → Bytes → Option (Bytes × Bytes)
  | _, [] => none
  | 0, x :: t =>
    if (x :: t).take delims.length = delims then some ([], x :: t)
    else (scanAligned delims (delims.length - 1) t).map (fun p => (x :: p.1, p.2))
  | k + 1, x :: t => (scanAligned delims k t).map (fun p => (x :: p.1, p.2))

/-- Modelled from the spec: `ReadTillDelims` of the pooled reader. The spec has
the decoder scan forward for the terminator, for a 2-byte terminator in aligned
pairs; the data in front of the terminator is returned and the terminator is
left unread. Without a terminator the read ends in end-of-stream. -/
def Reader.ReadTillDelims (delims : Bytes) (rd : Bytes) : Except Error (Bytes × Bytes) :=
  if delims = [] then .ok ([], rd)
  else match scanAligned delims 0 rd with
    | none => .error Error.EOF
    | some p => .ok p

/-! ## The unsynchronised lyrics frame -/

/-- The struct `UnsynchronisedLyricsFrame`. -/
structure UnsynchronisedLyricsFrame where
  Encoding : Encoding
  Language : Bytes
  ContentDescriptor : Bytes
  Lyrics : Bytes
  deriving DecidableEq, Repr

/-- The method `UnsynchronisedLyricsFrame.Size`. -/
def UnsynchronisedLyricsFrame.Size (c : TextCodec) (uslf : UnsynchronisedLyricsFrame) : Nat :=
  1 + uslf.Language.length + encodedSize c uslf.ContentDescriptor uslf.Encoding +
    uslf.Encoding.TerminationBytes.length + encodedSize c uslf.Lyrics uslf.Encoding

/-- What a `WriteTo` call on a sink that accepts every write leaves behind: the
returned count, the returned error and the bytes that reached the sink. -/
structure WriteResult where
  n : Nat
  err : Option Error
  emitted : Bytes
  deriving DecidableEq, Repr

/-- The method `UnsynchronisedLyricsFrame.WriteTo` on a sink that accepts every
write. The writes go to a buffered writer, so the sink receives them at the
final `Flush`; on the language error the function returns before flushing. -/
def UnsynchronisedLyricsFrame.WriteTo (c : TextCodec) (uslf : UnsynchronisedLyricsFrame) :
    WriteResult :=
  let bw : Bytes := [uslf.Encoding.Key]
  let n := 1
  if uslf.Language.length ≠ 3 then
    ⟨n, some Error.LanguageLength, []⟩
  else
    let bw := bw ++ uslf.Language
    let n := n + uslf.Language.length
    let text := c.encode uslf.Encoding uslf.ContentDescriptor
    let bw := bw ++ text
    let n := n + text.length
    let bw := bw ++ uslf.Encoding.TerminationBytes
    let n := n + uslf.Encoding.TerminationBytes.length
    let text := c.encode uslf.Encoding uslf.Lyrics
    let bw := bw ++ text
    let n := n + text.length
    ⟨n, none, bw⟩

/-- The function `parseUnsynchronisedLyricsFrame` on a reader holding `rd`. -/
def parseUnsynchronisedLyricsFrame (c : TextCodec) (rd : Bytes) :
    Except Error UnsynchronisedLyricsFrame := do
  let (encodingKey, rd) ← Reader.ReadByte rd
  let encoding := getEncoding encodingKey
  let (language, rd) ← Reader.Next 3 rd
  let (contentDescriptor, rd) ← Reader.ReadTillDelims encoding.TerminationBytes rd
  let (_, rd) ← Reader.Discard encoding.TerminationBytes.length rd
  let lyrics := rd
  pure
    { Encoding := encoding
      Language := language
      ContentDescriptor := c.decode encoding contentDescriptor
      Lyrics := c.decode encoding lyrics }

/-! ## The comment sequence (`comment_sequence.go`) -/

/-- Modelled from the spec: the struct `CommentFrame` is declared in a file that
is not part of the sources at hand. The spec gives it an encoding, a language
code, a short description and the text. -/
structure CommentFrame where
  Encoding : Encoding
  Language : Bytes
  Description : Bytes
  Text : Bytes
  deriving DecidableEq, Repr

/-- Assignment `m[k] = v` on a Go map kept as an association list: the entry
under `k` is replaced when there is one, otherwise a new entry is added. -/
def mapSet {V : Type} (m : List (Bytes × V)) (k : Bytes) (v : V) : List (Bytes × V) :=
  match m with
  | [] => [(k, v)]
  | e :: t => if e.1 = k then (k, v) :: t else e :: mapSet t k v

/-- Lookup `m[k]` on a Go map kept as an association list. -/
def mapGet {V : Type} (m : List (Bytes × V)) (k : Bytes) : Option V :=
  match m with
  | [] => none
  | e :: t => if e.1 = k then some e.2 else mapGet t k

/-- The order in which one `range` loop visits the entries of a Go map. The
language leaves it unspecified, so it is any rearrangement of the entries. -/
structure MapOrder where
  order : List (Bytes × CommentFrame) → List (Bytes × CommentFrame)
  perm : ∀ m, (order m).Perm m

/-- The iteration order that visits the entries as stored. -/
def MapOrder.stored : MapOrder := ⟨fun m => m, fun m => List.Perm.refl m⟩

/-- The struct `commentSequence`; a nil `framesCache` is the empty list. -/
structure commentSequence where
  sequence : List (Bytes × CommentFrame)
  framesCache : List CommentFrame

/-- The function `newCommentSequence`. -/
def newCommentSequence : commentSequence := ⟨[], []⟩

/-- The composite key computed in `AddFrame`: language followed by description. -/
def commentKey (cf : CommentFrame) : Bytes := cf.Language ++ cf.Description

/-- The method `commentSequence.AddFrame`, on a frame that is a `CommentFrame`. -/
def commentSequence.AddFrame (cs : commentSequence) (cf : CommentFrame) : commentSequence :=
  let id := cf.Language ++ cf.Description
  { sequence := mapSet cs.sequence id cf, framesCache := [] }

/-- The method `commentSequence.Count`. -/
def commentSequence.Count (cs : commentSequence) : Nat := cs.sequence.length

/-- The method `commentSequence.Frames`: the returned list and the sequence with
its cache as the call leaves it. `o` is the order of the `range` loop. -/
def commentSequence.Frames (o : MapOrder) (cs : commentSequence) :
    List CommentFrame × commentSequence :=
  let cache := cs.framesCache
  if cache.length = 0 then
    let cache := (o.order cs.sequence).map Prod.snd
    (cache, { cs with framesCache := cache })
  else
    (cache, cs)

/-- One call made on a comment sequence. -/
inductive SeqCall where
  | add (cf : CommentFrame)
  | frames (o : MapOrder)

/-- The sequence after one call. -/
def commentSequence.call (cs : commentSequence) : SeqCall → commentSequence
  | .add cf => cs.AddFrame cf
  | .frames o => (cs.Frames o).2

/-- The sequence after a list of calls, starting from `newCommentSequence`. -/
def runCalls (calls : List SeqCall) : commentSequence :=
  calls.foldl commentSequence.call newCommentSequence

/-- The frames handed to `AddFrame` by a list of calls, in order. -/
def addedFrames : List SeqCall → List CommentFrame
  | [] => []
  | .add cf :: t => cf :: addedFrames t
  | .frames _ :: t => addedFrames t

/-! ## The byte reader (`util/reader.go`) -/

/-- What a read leaves behind: the data returned, the error returned and the
bytes the reader has not delivered yet. -/
structure ReadResult where
  data : Bytes
  err : Option Error
  rest : Bytes
  deriving DecidableEq, Repr

/-- The size of the buffer `bufio.NewReader` allocates. -/
def defaultBufSize : Nat := 4096

/-- The method `Reader.ReadAll`. -/
def Reader.ReadAll (r : Bytes) : ReadResult := ⟨r, none, []⟩

/-- The method `Reader.ReadBytes`. `Peek` fails with `ErrBufferFull` when more
than the buffer can hold is asked for and with `io.EOF` when fewer than `n`
bytes remain; in both cases nothing is consumed. -/
def Reader.ReadBytes (n : Nat) (r : Bytes) : ReadResult :=
  if n = 0 then ⟨[], none, r⟩
  else if defaultBufSize < n then ⟨[], some Error.BufferFull, r⟩
  else if r.length < n then ⟨[], some Error.EOF, r⟩
  else ⟨r.take n, none, r.drop n⟩

/-- The input up to and including the first `delim`, and what follows it. -/
def splitDelim (delim : Nat) : Bytes → Option (Bytes × Bytes)
  | [] => none
  | x :: t =>
    if x = delim then some ([x], t)
    else (splitDelim delim t).map (fun p => (x :: p.1, p.2))

/-- The method `Reader.ReadTillAndWithDelim`, that is `bufio.Reader.ReadBytes`:
the data up to and including the delimiter, or everything that was left
together with `io.EOF`. -/
def Reader.ReadTillAndWithDelim (delim : Nat) (r : Bytes) : ReadResult :=
  match splitDelim delim r with
  | some p => ⟨p.1, none, p.2⟩
  | none => ⟨r, some Error.EOF, []⟩

/-- The `for` loop of `Reader.ReadTillAndWithDelims` for a delimiter
`d :: ds` of two or more bytes; `none` when the fuel runs out. -/
def readDelimsLoop (d : Nat) (ds : Bytes) : Nat → Bytes → Bytes → Option ReadResult
  | 0, _, _ => none
  | fuel + 1, buf, r =>
    let first := Reader.ReadTillAndWithDelim d r
    if first.err = some Error.EOF then some ⟨buf, none, first.rest⟩
    else if first.err ≠ none then some ⟨buf, first.err, first.rest⟩
    else
      let buf := buf ++ first.data
      let second := Reader.ReadBytes ds.length first.rest
      if second.err ≠ none then some ⟨buf, second.err, second.rest⟩
      else
        let buf := buf ++ second.data
        if second.data = ds then some ⟨buf, none, second.rest⟩
        else readDelimsLoop d ds fuel buf second.rest

/-- The method `Reader.ReadTillAndWithDelims`. Every turn of the loop that does
not leave it consumes at least one byte, so the length of the input plus one
is enough fuel. -/
def Reader.ReadTillAndWithDelims (delims : Bytes) (r : Bytes) : Option ReadResult :=
  match delims with
  | [] => some (Reader.ReadAll r)
  | [d] => some (Reader.ReadTillAndWithDelim d r)
  | d :: ds => readDelimsLoop d ds (r.length + 1) [] r

/-! ## Frame headers and the parse loop (`parse.go`) -/

/-- The constant `frameHeaderSize`. -/
def frameHeaderSize : Nat := 10

/-- Modelled from the spec: the constant `tagHeaderSize` is declared in a file
that is not part of the sources at hand; the tag header is 10 bytes long. -/
def tagHeaderSize : Int := 10

/-- The struct `frameHeader`. -/
structure frameHeader where
  ID : Bytes
  BodySize : Nat
  deriving DecidableEq, Repr

/-- The synchsafe value of a byte sequence: seven bits per byte, most
significant byte first. -/
def synchsafeValue (data : Bytes) : Nat :=
  data.foldl (fun size b => size * 128 + b) 0

/-- Modelled from the spec: `util.ParseSize` is not part of the sources at hand.
Decoding fails with `InvalidSizeFormat` if any byte has its high bit set, that
is if it is 128 or more; otherwise every byte contributes its low seven bits. -/
def ParseSize (data : Bytes) : Except Error Nat :=
  if data.any (fun b => decide (128 ≤ b)) then .error Error.InvalidSizeFormat
  else .ok (synchsafeValue data)

/-- The slice `data[i:j]` of the bytes of a pooled buffer. A Go slice expression
may reach past the length of the slice into the capacity of its backing array;
`bytes.Buffer.ReadFrom` always leaves at least 512 bytes of capacity, so the
slice exists, and positions past the data read hold whatever the backing array
held before, given by `stale`. -/
def bufSlice (stale : Nat → Nat) (data : Bytes) (i j : Nat) : Bytes :=
  (List.range (j - i)).map (fun k => data.getD (i + k) (stale (i + k)))

/-- The function `parseFrameHeader` on a reader holding `rd`: its result and
what the reader still holds. The reader is limited to `frameHeaderSize` bytes
and read to its end by `ReadFrom`, which does not report `io.EOF` as an error;
`stale` is the prior content of the pooled buffer. -/
def parseFrameHeader (stale : Nat → Nat) (rd : Bytes) : Except Error frameHeader × Bytes :=
  let data := rd.take frameHeaderSize
  let rest := rd.drop frameHeaderSize
  let id := bufSlice stale data 0 4
  match ParseSize (bufSlice stale data 4 8) with
  | .error err => (.error err, rest)
  | .ok bodySize =>
    if id = [] ∨ bodySize = 0 then (.error Error.BlankFrame, rest)
    else (.ok { ID := id, BodySize := bodySize }, rest)

/-- What a frame body parser hands back: the frame (possibly nil), the error,
and how many bytes it drew from the reader it was given. -/
structure BodyResult (F : Type) where
  frame : Option F
  err : Option Error
  used : Nat

/-- The body parsers `parseFrameBody` dispatches to. None of them is part of the
sources at hand, so they are parameters of the parse loop. -/
structure FrameParsers (F : Type) where
  parseTextFrame : Bytes → BodyResult F
  parsers : Bytes → Option (Bytes → BodyResult F)
  parseUnknownFrame : Bytes → BodyResult F

/-- The function `parseFrameBody`; 84 is the character `T`. The ID comes from a
frame header and is never empty. -/
def parseFrameBody {F : Type} (P : FrameParsers F) (id : Bytes) (rd : Bytes) : BodyResult F :=
  if id.head? = some 84 then P.parseTextFrame rd
  else match P.parsers id with
    | some parseFunc => parseFunc rd
    | none => P.parseUnknownFrame rd

/-- The part of the struct `Tag` the parse loop works on. `added` stands for the
frame map and the sequences: it lists the `AddFrame` calls made so far. -/
structure Tag (F : Type) where
  reader : Bytes
  originalSize : Int
  version : Nat
  added : List (Bytes × Option F)

/-- Modelled from the spec: `Tag.AddFrame` is not part of the sources at hand.
It puts the frame into the frame map under its ID (replacing, or inserting into
a sequence); the model records the call. -/
def Tag.AddFrame {F : Type} (t : Tag F) (id : Bytes) (f : Option F) : Tag F :=
  { t with added := t.added ++ [(id, f)] }

/-- The fields of `Options` the parse loop reads. -/
structure Options where
  Parse : Bool
  ParseFrames : List Bytes

/-- How the `for` loop of `parseAllFrames` ends: the error returned, the tag,
and the value of the local variable `framesSize` at that point. -/
structure LoopEnd (F : Type) where
  err : Option Error
  tag : Tag F
  framesSize : Int

/-- The `for` loop of `parseAllFrames`. `parseIDs` lists the keys of the map of
that name, `i` counts the turns made so far, `stale i` is the prior content of
the pooled header buffer in turn `i`; `none` when the fuel runs out. -/
def parseLoop {F : Type} (P : FrameParsers F) (stale : Nat → Nat → Nat) (parseIDs : List Bytes) :
    Nat → Nat → Int → Tag F → Option (LoopEnd F)
  | fuel, i, framesSize, t =>
    if framesSize ≤ 0 then some ⟨none, t, framesSize⟩
    else match fuel with
      | 0 => none
      | fuel + 1 =>
        let hr := parseFrameHeader (stale i) t.reader
        let t := { t with reader := hr.2 }
        match hr.1 with
        | .error err =>
          if err = Error.EOF ∨ err = Error.BlankFrame ∨ err = Error.InvalidSizeFormat then
            some ⟨none, t, framesSize⟩
          else some ⟨some err, t, framesSize⟩
        | .ok header =>
          let id := header.ID
          let bodySize := header.BodySize
          let framesSize := framesSize - ((frameHeaderSize : Int) + (bodySize : Int))
          if 0 < parseIDs.length ∧ id ∉ parseIDs then
            -- io.CopyN(ioutil.Discard, t.reader, bodySize), its error dropped
            parseLoop P stale parseIDs fuel (i + 1) framesSize
              { t with reader := t.reader.drop bodySize }
          else
            -- the body reader delivers at most bodySize bytes of t.reader
            let bodyRd := t.reader.take bodySize
            let r := parseFrameBody P id bodyRd
            let t := { t with reader := t.reader.drop (min r.used bodyRd.length) }
            if r.err ≠ none ∧ r.err ≠ some Error.EOF then some ⟨r.err, t, framesSize⟩
            else
              let t := t.AddFrame id r.frame
              if r.err = some Error.EOF then some ⟨none, t, framesSize⟩
              else parseLoop P stale parseIDs fuel (i + 1) framesSize t

/-- The method `Tag.parseAllFrames`. `commonID` stands for `t.CommonID`, which
is not part of the sources at hand. Every turn of the loop that does not leave
it lowers `framesSize` by at least 11, so the initial value is enough fuel. -/
def Tag.parseAllFrames {F : Type} (P : FrameParsers F) (stale : Nat → Nat → Nat)
    (commonID : Bytes → Bytes) (t : Tag F) (opts : Options) : Option (LoopEnd F) :=
  let framesSize := t.originalSize - tagHeaderSize
  let parseIDs := opts.ParseFrames.map commonID
  parseLoop P stale parseIDs framesSize.toNat 0 framesSize t

/-! ## Properties stated about encoded text -/

/-- No aligned pair of `enc` is the pair `d1 d2`, and `enc` is made of pairs. -/
def pairFree (d1 d2 : Nat) : Bytes → Bool
  | [] => true
  | [_] => false
  | a :: b :: t => !(a == d1 && b == d2) && pairFree d1 d2 t

/-- The encoded text `enc` is a whole number of code units none of which is the
terminator: for a 1-byte terminator no byte of `enc` is the terminator byte,
for a 2-byte terminator `enc` consists of byte pairs none of which is the
terminator pair. -/
def terminatorFree (term enc : Bytes) : Bool :=
  match term with
  | [d] => !enc.contains d
  | [d1, d2] => pairFree d1 d2 enc
  | _ => false

/-- What holds of every comment sequence reached by calls from the empty one:
the keys are distinct, every frame sits under its own key, and the keys are
those of the frames added. -/
structure SeqInv (cs : commentSequence) (added : List CommentFrame) : Prop where
  nodup : (cs.sequence.map Prod.fst).Nodup
  keyed : ∀ e ∈ cs.sequence, e.1 = commentKey e.2
  keys : ∀ k, k ∈ cs.sequence.map Prod.fst ↔ k ∈ added.map commentKey

/-- The bytes of a sequence of 2-byte code units. -/
def codeUnits : List (Nat × Nat) → Bytes
  | [] => []
  | u :: t => u.1 :: u.2 :: codeUnits t

/-- No code unit that ends in a zero byte is directly followed by a zero byte,
be it the first byte of the next unit or, after the last unit, the first byte
of the terminator `00 00`. -/
def straddleFree : List (Nat × Nat) → Bool
  | [] => true
  | [u] => !(u.2 == 0)
  | u :: v :: t => !(u.2 == 0 && v.1 == 0) && straddleFree (v :: t)

/-- No two neighbouring bytes of the input are both `d`. -/
def adjacentFree (d : Nat) : Bytes → Bool
  | x :: y :: t => !(x == d && y == d) && adjacentFree d (y :: t)
  | _ => true

/-! ## Frame streams, for the statements about the parse loop -/

/-- One frame as it lies in the source: four ID bytes, four size bytes, two
flag bytes and the body. -/
structure RawFrame where
  id : Bytes
  size : Bytes
  flags : Bytes
  body : Bytes
  deriving DecidableEq, Repr

/-- The bytes of a frame in the source. -/
def RawFrame.wire (f : RawFrame) : Bytes := f.id ++ f.size ++ f.flags ++ f.body

/-- The bytes of a sequence of frames in the source. -/
def wireFrames : List RawFrame → Bytes
  | [] => []
  | f :: t => f.wire ++ wireFrames t

/-- The header of the frame is ten bytes long, none of its size bytes has the
high bit set, and the size they declare is not zero. -/
def RawFrame.headerOk (f : RawFrame) : Bool :=
  decide (f.id.length = 4) && decide (f.size.length = 4) && decide (f.flags.length = 2) &&
    !(f.size.any (fun b => decide (128 ≤ b))) && decide (synchsafeValue f.size ≠ 0)

/-- The frame has a sound header and its body is as long as the header says. -/
def RawFrame.complete (f : RawFrame) : Bool :=
  f.headerOk && decide (synchsafeValue f.size = f.body.length)

/-- The frame ID passes the filter of the parse loop: the map `parseIDs` is
empty or holds the ID. -/
def selected (parseIDs : List Bytes) (id : Bytes) : Bool :=
  !(decide (0 < parseIDs.length) && decide (id ∉ parseIDs))

/-- Every frame of the list starts while the budget `framesSize` is positive,
each frame lowering it by 10 plus its declared size. -/
def budgetCovers : Int → List RawFrame → Bool
  | _, [] => true
  | framesSize, f :: t =>
    decide (0 < framesSize) &&
      budgetCovers (framesSize - ((frameHeaderSize : Int) + (synchsafeValue f.size : Int))) t

/-- The budget left after the frames of the list. -/
def budgetAfter : Int → List RawFrame → Int
  | framesSize, [] => framesSize
  | framesSize, f :: t =>
    budgetAfter (framesSize - ((frameHeaderSize : Int) + (synchsafeValue f.size : Int))) t

/-- The `AddFrame` calls the parse loop makes for a list of complete frames:
one per frame that passes the filter, with the frame its body parses to. -/
def addedBy {F : Type} (P : FrameParsers F) (parseIDs : List Bytes) :
    List RawFrame → List (Bytes × Option F)
  | [] => []
  | f :: t =>
    if selected parseIDs f.id then (f.id, (parseFrameBody P f.id f.body).frame) :: addedBy P parseIDs t
    else addedBy P parseIDs t

/-- Ten bytes that end the loop softly when read as a frame header: a size byte
with its high bit set, or a size of zero. -/
def softStop (h : Bytes) : Bool :=
  decide (h.length = 10) &&
    (((h.drop 4).take 4).any (fun b => decide (128 ≤ b)) ||
      decide (synchsafeValue ((h.drop 4).take 4) = 0))

/-- The frames a concrete set of body parsers produces. -/
inductive Frame where
  | text (enc : Encoding) (text : Bytes)
  | lyrics (uslf : UnsynchronisedLyricsFrame)
  | unknown (body : Bytes)
  deriving DecidableEq, Repr

/-- Modelled from the spec: the body parsers are not part of the sources at
hand, except the one for lyrics frames. The text frame parser reads the
encoding key and takes the remaining bytes as the text; the lyrics frame parser
is `parseUnsynchronisedLyricsFrame`, registered under `USLT`; every other ID
falls back to a verbatim frame that stores the raw body bytes unchanged. Each
parser reads through a buffered reader, which draws all the body reader has. -/
def stockParsers (c : TextCodec) : FrameParsers Frame where
  parseTextFrame := fun rd =>
    match rd with
    | [] => ⟨none, some Error.EOF, 0⟩
    | key :: rest => ⟨some (.text (getEncoding key) (c.decode (getEncoding key) rest)), none, rd.length⟩
  parsers := fun id =>
    if id = [85, 83, 76, 84] then
      some (fun rd =>
        match parseUnsynchronisedLyricsFrame c rd with
        | .ok uslf => ⟨some (.lyrics uslf), none, rd.length⟩
        | .error err => ⟨none, some err, rd.length⟩)
    else none
  parseUnknownFrame := fun rd => ⟨some (.unknown rd), none, rd.length⟩

/-- Two complete frames: the text frame `TIT2` with body `03 41` and a frame
with the unregistered ID `XXXX` and body `09`. -/
def sampleFrames : List RawFrame :=
  [⟨[84, 73, 84, 50], [0, 0, 0, 2], [0, 0], [3, 65]⟩, ⟨[88, 88, 88, 88], [0, 0, 0, 1], [0, 0], [9]⟩]

/-- A tag of version 4 with a frame area of `area` bytes over the reader `rd`,
before any frame is added. -/
def sampleTag (area : Int) (rd : Bytes) : Tag Frame :=
  { reader := rd, originalSize := tagHeaderSize + area, version := 4, added := [] }

/-! ## Parsing a tag (`parse.go`) -/

/-- Modelled from the spec: the struct `parseHeader` returns is declared in a
file that is not part of the sources at hand; `parseTag` reads its major
version and its frames size. -/
structure tagHeader where
  FramesSize : Int
  Version : Nat
  deriving DecidableEq, Repr

/-- The function `newTag`: empty frame map and sequences. -/
def newTag {F : Type} (reader : Bytes) (originalSize : Int) (version : Nat) : Tag F :=
  { reader := reader, originalSize := originalSize, version := version, added := [] }

/-- The function `parseTag`; a nil reader is `none`. `parseHeader` is not part
of the sources at hand and is a parameter: it hands back the header or an error
and what the reader still holds. The result is the tag (or nil) and the error;
`none` only when the parse loop runs out of fuel. -/
def parseTag {F : Type} (P : FrameParsers F) (stale : Nat → Nat → Nat)
    (commonID : Bytes → Bytes) (parseHeader : Bytes → Except Error tagHeader × Bytes)
    (reader : Option Bytes) (opts : Options) : Option (Option (Tag F) × Option Error) :=
  match reader with
  | none => some (none, some Error.NilReader)
  | some rd =>
    let hr := parseHeader rd
    match hr.1 with
    | .error err =>
      if err = Error.NoTag then some (some (newTag hr.2 0 4), none)
      else some (none, some Error.TagHeader)
    | .ok header =>
      if header.Version < 3 then some (none, some (Error.UnsupportedVersion header.Version))
      else
        let t : Tag F := newTag hr.2 (tagHeaderSize + header.FramesSize) header.Version
        if opts.Parse then
          match t.parseAllFrames P stale commonID opts with
          | none => none
          | some e => some (some e.tag, e.err)
        else some (some t, none)

/-- Modelled from the spec: `parseHeader` is not part of the sources at hand.
It reads the first 10 bytes: a 3-byte marker (here the bytes `ID3`), the major
version, a revision byte that is ignored, a flags byte and the 4-byte synchsafe
size of the frames. It fails with `NoTag` when the marker does not match. -/
def parseHeader (rd : Bytes) : Except Error tagHeader × Bytes :=
  let data := rd.take 10
  if data.take 3 ≠ [73, 68, 51] then (.error Error.NoTag, rd.drop 10)
  else match ParseSize ((data.drop 6).take 4) with
    | .error err => (.error err, rd.drop 10)
    | .ok size => (.ok { FramesSize := size, Version := data.getD 3 0 }, rd.drop 10)

/-! ## The buffered writer (`buf_writer.go`) -/

/-- What a write on the underlying `bufio.Writer` hands back: the writer after
the call, the number of bytes accepted and the error. -/
structure WriteOut (W : Type) where
  w : W
  n : Nat
  err : Option Error

/-- The methods of `bufio.Writer` that `bufWriter` calls, over the states `W`
of such a writer and the sinks `K` it can be reset to. -/
structure BufioWriter (W K : Type) where
  WriteByte : W → Nat → W × Option Error
  WriteString : W → Bytes → WriteOut W
  Write : W → Bytes → WriteOut W
  Flush : W → W × Option Error
  Reset : W → K → W

/-- The contract of `Write` and `WriteString` of `bufio.Writer`: a write that
accepts fewer bytes than it was given returns an error. -/
def BufioWriter.Lawful {W K : Type} (B : BufioWriter W K) : Prop :=
  (∀ w s, (B.WriteString w s).err = none → (B.WriteString w s).n = s.length) ∧
  (∀ w p, (B.Write w p).err = none → (B.Write w p).n = p.length)

/-- The struct `bufWriter`; the counter `written` never comes near the range
of `int64` and is a natural number. -/
structure bufWriter (W : Type) where
  err : Option Error
  w : W
  written : Nat

/-- The helpers `encodeWriteText` and `writeBytesSize`, which are not part of
the sources at hand: each works on the `bufWriter` it is given and returns an
error. -/
structure WriterHelpers (W : Type) where
  encodeWriteText : bufWriter W → Bytes → Encoding → bufWriter W × Option Error
  writeBytesSize : bufWriter W → Nat → bufWriter W × Option Error

/-- The method `bufWriter.EncodeAndWriteText`; its parameter `to` is `enc`. -/
def bufWriter.EncodeAndWriteText {W : Type} (H : WriterHelpers W) (bw : bufWriter W)
    (src : Bytes) (enc : Encoding) : bufWriter W :=
  if bw.err ≠ none then bw
  else
    let r := H.encodeWriteText bw src enc
    { r.1 with err := r.2 }

/-- The method `bufWriter.Flush`: the writer after the call and the error. -/
def bufWriter.Flush {W K : Type} (B : BufioWriter W K) (bw : bufWriter W) :
    bufWriter W × Option Error :=
  if bw.err ≠ none then (bw, bw.err)
  else
    let r := B.Flush bw.w
    ({ bw with w := r.1 }, r.2)

/-- The method `bufWriter.Reset`. -/
def bufWriter.Reset {W K : Type} (B : BufioWriter W K) (bw : bufWriter W) (sink : K) :
    bufWriter W :=
  { err := none, written := 0, w := B.Reset bw.w sink }

/-- The method `bufWriter.WriteByte`. -/
def bufWriter.WriteByte {W K : Type} (B : BufioWriter W K) (bw : bufWriter W) (c : Nat) :
    bufWriter W :=
  if bw.err ≠ none then bw
  else
    let r := B.WriteByte bw.w c
    let bw : bufWriter W := { bw with w := r.1, err := r.2 }
    if bw.err = none then { bw with written := bw.written + 1 } else bw

/-- The method `bufWriter.WriteBytesSize`. -/
def bufWriter.WriteBytesSize {W : Type} (H : WriterHelpers W) (bw : bufWriter W) (size : Nat) :
    bufWriter W :=
  if bw.err ≠ none then bw
  else
    let r := H.writeBytesSize bw size
    { r.1 with err := r.2 }

/-- The method `bufWriter.WriteString`. -/
def bufWriter.WriteString {W K : Type} (B : BufioWriter W K) (bw : bufWriter W) (s : Bytes) :
    bufWriter W :=
  if bw.err ≠ none then bw
  else
    let r := B.WriteString bw.w s
    { w := r.w, err := r.err, written := bw.written + r.n }

/-- The method `bufWriter.Write`: the writer after the call, and the count and
the error returned. -/
def bufWriter.Write {W K : Type} (B : BufioWriter W K) (bw : bufWriter W) (p : Bytes) :
    bufWriter W × Nat × Option Error :=
  if bw.err ≠ none then (bw, 0, bw.err)
  else
    let r := B.Write bw.w p
    ({ w := r.w, err := r.err, written := bw.written + r.n }, r.n, r.err)

/-- The method `bufWriter.Written`. -/
def bufWriter.Written {W : Type} (bw : bufWriter W) : Nat := bw.written

/-- One call of a write operation of `bufWriter`. -/
inductive WriteCall where
  | WriteByte (c : Nat)
  | WriteString (s : Bytes)
  | Write (p : Bytes)
  | WriteBytesSize (size : Nat)
  | EncodeAndWriteText (src : Bytes) (enc : Encoding)

/-- The writer after one write call. -/
def bufWriter.call {W K : Type} (B : BufioWriter W K) (H : WriterHelpers W)
    (bw : bufWriter W) : WriteCall → bufWriter W
  | .WriteByte c => bw.WriteByte B c
  | .WriteString s => bw.WriteString B s
  | .Write p => (bw.Write B p).1
  | .WriteBytesSize size => bw.WriteBytesSize H size
  | .EncodeAndWriteText src enc => bw.EncodeAndWriteText H src enc

/-- One call of a method that hands its bytes straight to the underlying
writer. -/
inductive DirectCall where
  | WriteByte (c : Nat)
  | WriteString (s : Bytes)
  | Write (p : Bytes)
  deriving DecidableEq, Repr

/-- The writer after one such call. -/
def bufWriter.direct {W K : Type} (B : BufioWriter W K) (bw : bufWriter W) :
    DirectCall → bufWriter W
  | .WriteByte c => bw.WriteByte B c
  | .WriteString s => bw.WriteString B s
  | .Write p => (bw.Write B p).1

/-- The underlying writer after the method a direct call stands for. -/
def BufioWriter.step {W K : Type} (B : BufioWriter W K) (w : W) : DirectCall → W
  | .WriteByte c => (B.WriteByte w c).1
  | .WriteString s => (B.WriteString w s).w
  | .Write p => (B.Write w p).w

/-- The number of bytes passed to a direct call. -/
def DirectCall.passed : DirectCall → Nat
  | .WriteByte _ => 1
  | .WriteString s => s.length
  | .Write p => p.length

/-- The total number of bytes passed to a list of direct calls. -/
def passedTotal : List DirectCall → Nat
  | [] => 0
  | c :: t => c.passed + passedTotal t

/-- What a helper does with the `bufWriter` it is given, for helpers that use
it through its write methods only: the direct calls it makes, in order, and the
error it returns. -/
structure HelperScripts where
  encodeWriteText : Bytes → Encoding → List DirectCall × Option Error
  writeBytesSize : Nat → List DirectCall × Option Error

/-- The helpers that carry out the given scripts. -/
def scriptedHelpers {W K : Type} (B : BufioWriter W K) (sc : HelperScripts) :
    WriterHelpers W where
  encodeWriteText := fun bw src enc =>
    ((sc.encodeWriteText src enc).1.foldl (bufWriter.direct B) bw, (sc.encodeWriteText src enc).2)
  writeBytesSize := fun bw size =>
    ((sc.writeBytesSize size).1.foldl (bufWriter.direct B) bw, (sc.writeBytesSize size).2)

/-- The direct calls a write call comes to, those of its helper for the two
methods that work through one. -/
def WriteCall.expand (sc : HelperScripts) : WriteCall → List DirectCall
  | .WriteByte c => [.WriteByte c]
  | .WriteString s => [.WriteString s]
  | .Write p => [.Write p]
  | .WriteBytesSize size => (sc.writeBytesSize size).1
  | .EncodeAndWriteText src enc => (sc.encodeWriteText src enc).1

/-- The direct calls a list of write calls comes to. -/
def expandCalls (sc : HelperScripts) : List WriteCall → List DirectCall
  | [] => []
  | c :: t => c.expand sc ++ expandCalls sc t

/-- No write fails in the call: every direct call it comes to leaves the
`bufWriter` without an error, and so does the error its helper returns. -/
def callOk {W K : Type} (B : BufioWriter W K) (sc : HelperScripts) (bw : bufWriter W) :
    WriteCall → Bool
  | .WriteByte c => decide ((bw.WriteByte B c).err = none)
  | .WriteString s => decide ((bw.WriteString B s).err = none)
  | .Write p => decide ((bw.Write B p).1.err = none)
  | .WriteBytesSize size =>
    decide (((sc.writeBytesSize size).1.foldl (bufWriter.direct B) bw).err = none) &&
      decide ((sc.writeBytesSize size).2 = none)
  | .EncodeAndWriteText src enc =>
    decide (((sc.encodeWriteText src enc).1.foldl (bufWriter.direct B) bw).err = none) &&
      decide ((sc.encodeWriteText src enc).2 = none)

/-- No write fails in the calls of the list, made in turn. -/
def callsOk {W K : Type} (B : BufioWriter W K) (sc : HelperScripts) :
    bufWriter W → List WriteCall → Bool
  | _, [] => true
  | bw, c :: t => callOk B sc bw c && callsOk B sc (bw.call B (scriptedHelpers B sc) c) t

/-- The error the action behind a write call reports, on a `bufWriter` that
holds no error: that of the underlying writer for a direct call, that of the
helper for the two methods that work through one. -/
def reportedError {W K : Type} (B : BufioWriter W K) (H : WriterHelpers W) (bw : bufWriter W) :
    WriteCall → Option Error
  | .WriteByte c => (B.WriteByte bw.w c).2
  | .WriteString s => (B.WriteString bw.w s).err
  | .Write p => (B.Write bw.w p).err
  | .WriteBytesSize size => (H.writeBytesSize bw size).2
  | .EncodeAndWriteText src enc => (H.encodeWriteText bw src enc).2

/-! ### The writer `bufio.NewWriter` makes

`newBufWriter` wraps its sink in `bufio.NewWriter`, a writer of the standard
library with a buffer of 4096 bytes. It is embedded here over an arbitrary
`io.Writer` that keeps the contract of `Write`. -/

/-- An `io.Writer` over the states `S`: `Write` hands back the state after the
call, the number of bytes taken and the error. The laws are the contract of
`io.Writer`: no more bytes are taken than were given, and taking fewer comes
with an error. -/
structure IoWriter (S : Type) where
  Write : S → Bytes → S × Nat × Option Error
  le : ∀ s p, (Write s p).2.1 ≤ p.length
  full : ∀ s p, (Write s p).2.2 = none → (Write s p).2.1 = p.length

/-- The state of a `bufio.Writer`: the bytes buffered, the sticky error and the
sink. -/
structure BufioState (S : Type) where
  buf : Bytes
  err : Option Error
  wr : S

/-- The method `Available` of `bufio.Writer`. -/
def BufioState.Available {S : Type} (b : BufioState S) : Nat := defaultBufSize - b.buf.length

/-- The method `Flush` of `bufio.Writer`. -/
def BufioState.Flush {S : Type} (sink : IoWriter S) (b : BufioState S) :
    BufioState S × Option Error :=
  if b.err ≠ none then (b, b.err)
  else if b.buf.length = 0 then (b, none)
  else
    let r := sink.Write b.wr b.buf
    let err := if r.2.1 < b.buf.length ∧ r.2.2 = none then some Error.ShortWrite else r.2.2
    if err ≠ none then ({ buf := b.buf.drop r.2.1, err := err, wr := r.1 }, err)
    else ({ buf := [], err := none, wr := r.1 }, none)

/-- The `for` loop of `Write` of `bufio.Writer`: the writer, what is left of
`p` and the count `nn`. -/
def bufioWriteLoop {S : Type} (sink : IoWriter S) :
    Nat → BufioState S → Bytes → Nat → BufioState S × Bytes × Nat
  | 0, b, p, nn => (b, p, nn)
  | fuel + 1, b, p, nn =>
    if b.Available < p.length ∧ b.err = none then
      if b.buf.length = 0 then
        let r := sink.Write b.wr p
        bufioWriteLoop sink fuel { b with wr := r.1, err := r.2.2 } (p.drop r.2.1) (nn + r.2.1)
      else
        let n := min b.Available p.length
        let b1 := (BufioState.Flush sink { b with buf := b.buf ++ p.take n }).1
        bufioWriteLoop sink fuel b1 (p.drop n) (nn + n)
    else (b, p, nn)

/-- The method `Write` of `bufio.Writer`. Under the contract of `io.Writer` the
body of its loop runs at most twice (once to fill and flush the buffer, once to
hand the rest to the sink), so 3 is enough fuel. -/
def BufioState.Write {S : Type} (sink : IoWriter S) (b : BufioState S) (p : Bytes) :
    WriteOut (BufioState S) :=
  let r := bufioWriteLoop sink 3 b p 0
  if r.1.err ≠ none then ⟨r.1, r.2.2, r.1.err⟩
  else
    let n := min r.1.Available r.2.1.length
    ⟨{ r.1 with buf := r.1.buf ++ r.2.1.take n }, r.2.2 + n, none⟩

/-- The `for` loop of `WriteString` of `bufio.Writer`. -/
def bufioWriteStringLoop {S : Type} (sink : IoWriter S) :
    Nat → BufioState S → Bytes → Nat → BufioState S × Bytes × Nat
  | 0, b, s, nn => (b, s, nn)
  | fuel + 1, b, s, nn =>
    if b.Available < s.length ∧ b.err = none then
      let n := min b.Available s.length
      let b1 := (BufioState.Flush sink { b with buf := b.buf ++ s.take n }).1
      bufioWriteStringLoop sink fuel b1 (s.drop n) (nn + n)
    else (b, s, nn)

/-- The method `WriteString` of `bufio.Writer`. Every turn of its loop but the
first takes a full buffer from `s`, so the length of `s` plus 2 is enough
fuel. -/
def BufioState.WriteString {S : Type} (sink : IoWriter S) (b : BufioState S) (s : Bytes) :
    WriteOut (BufioState S) :=
  let r := bufioWriteStringLoop sink (s.length + 2) b s 0
  if r.1.err ≠ none then ⟨r.1, r.2.2, r.1.err⟩
  else
    let n := min r.1.Available r.2.1.length
    ⟨{ r.1 with buf := r.1.buf ++ r.2.1.take n }, r.2.2 + n, none⟩

/-- The method `WriteByte` of `bufio.Writer`. -/
def BufioState.WriteByte {S : Type} (sink : IoWriter S) (b : BufioState S) (c : Nat) :
    BufioState S × Option Error :=
  if b.err ≠ none then (b, b.err)
  else if b.Available = 0 ∧ (BufioState.Flush sink b).2 ≠ none then
    ((BufioState.Flush sink b).1, (BufioState.Flush sink b).1.err)
  else if b.Available = 0 then
    ({ (BufioState.Flush sink b).1 with buf := (BufioState.Flush sink b).1.buf ++ [c] }, none)
  else ({ b with buf := b.buf ++ [c] }, none)

/-- The writer `bufio.NewWriter` makes, as the methods `bufWriter` calls;
`Reset` hands it a new sink. -/
def goBufio {S : Type} (sink : IoWriter S) : BufioWriter (BufioState S) S where
  WriteByte := BufioState.WriteByte sink
  WriteString := BufioState.WriteString sink
  Write := BufioState.Write sink
  Flush := BufioState.Flush sink
  Reset := fun _ wr => { buf := [], err := none, wr := wr }

/-- A sink that takes `room` more bytes and then fails: the state is the bytes
taken so far and the room left. -/
def roomSink : IoWriter (Bytes × Nat) where
  Write := fun s p =>
    if p.length ≤ s.2 then ((s.1 ++ p, s.2 - p.length), p.length, none)
    else ((s.1 ++ p.take s.2, 0), s.2, some (Error.other 1))
  le := by
    intro s p
    by_cases h : p.length ≤ s.2
    · simp [h]
    · simp only [h, if_false]; omega
  full := by
    intro s p h
    by_cases hc : p.length ≤ s.2
    · simp [hc]
    · simp [hc] at h

/-- Helper scripts that write the text unchanged with `WriteString` and the
size as four bytes of seven bits with `WriteByte`, and return no error. -/
def plainScripts : HelperScripts where
  encodeWriteText := fun src _ => ([.WriteString src], none)
  writeBytesSize := fun size =>
    ([.WriteByte (size / 2097152 % 128), .WriteByte (size / 16384 % 128),
      .WriteByte (size / 128 % 128), .WriteByte (size % 128)], none)

/-- A write of 4097 zero bytes, one more than the buffer holds. -/
def largeWrite : Bytes := List.replicate 4097 0

/-- A `bufWriter` as `newBufWriter` makes it, over a sink with room for 10
bytes. -/
def sampleWriter : bufWriter (BufioState (Bytes × Nat)) :=
  { err := none, w := { buf := [], err := none, wr := ([], 10) }, written := 0 }

/-! # Theorems -/

theorem scanAligned_single (d : Nat) (rest : Bytes) :
    ∀ enc : Bytes, enc.contains d = false →
      scanAligned [d] 0 (enc ++ d :: rest) = some (enc, d :: rest) := by
  intro enc
  induction enc with
  | nil => intro _; simp [scanAligned]
  | cons x t ih =>
    intro h
    have hx : x ≠ d := by
      intro hxd
      simp [hxd] at h
    have ht : t.contains d = false := by
      simp at h ⊢
      exact h.2
    simp [scanAligned, hx, ih ht]

theorem scanAligned_pair (d1 d2 : Nat) (rest : Bytes) :
    ∀ (n : Nat) (enc : Bytes), enc.length ≤ n → pairFree d1 d2 enc = true →
      scanAligned [d1, d2] 0 (enc ++ d1 :: d2 :: rest) = some (enc, d1 :: d2 :: rest) := by
  intro n
  induction n with
  | zero =>
    intro enc hlen _
    have : enc = [] := List.length_eq_zero.mp (Nat.le_zero.mp hlen)
    subst this
    simp [scanAligned]
  | succ n ih =>
    intro enc hlen h
    match enc, hlen, h with
    | [], _, _ => simp [scanAligned]
    | [_], _, h => simp [pairFree] at h
    | a :: b :: t, hlen, h =>
      simp only [pairFree, Bool.and_eq_true, Bool.not_eq_true'] at h
      have hne : ¬ (a = d1 ∧ b = d2) := by
        intro hab
        have := h.1
        simp [hab.1, hab.2] at this
      have ht := ih t (by simp at hlen; omega) h.2
      simp [scanAligned, hne, ht]

theorem readTillDelims_free (term enc rest : Bytes) (h : terminatorFree term enc = true) :
    Reader.ReadTillDelims term (enc ++ term ++ rest) = .ok (enc, term ++ rest) := by
  match term, h with
  | [d], h =>
    have hc : enc.contains d = false := by simpa [terminatorFree] using h
    simp [Reader.ReadTillDelims, scanAligned_single d rest enc hc]
  | [d1, d2], h =>
    have hp : pairFree d1 d2 enc = true := by simpa [terminatorFree] using h
    simp [Reader.ReadTillDelims, scanAligned_pair d1 d2 rest enc.length enc (Nat.le_refl _) hp]
  | [], h => simp [terminatorFree] at h
  | _ :: _ :: _ :: _, h => simp [terminatorFree] at h

theorem parse_written (c : TextCodec) (enc : Encoding) (lang e1 e2 : Bytes)
    (hkey : getEncoding enc.Key = enc) (hlang : lang.length = 3)
    (hfree : terminatorFree enc.TerminationBytes e1 = true) :
    parseUnsynchronisedLyricsFrame c
        ([enc.Key] ++ lang ++ e1 ++ enc.TerminationBytes ++ e2) =
      .ok ⟨enc, lang, c.decode enc e1, c.decode enc e2⟩ := by
  have h1 : Reader.ReadByte ([enc.Key] ++ lang ++ e1 ++ enc.TerminationBytes ++ e2) =
      .ok (enc.Key, lang ++ (e1 ++ enc.TerminationBytes ++ e2)) := by
    simp [Reader.ReadByte]
  have h2 : Reader.Next 3 (lang ++ (e1 ++ enc.TerminationBytes ++ e2)) =
      .ok (lang, e1 ++ enc.TerminationBytes ++ e2) := by
    obtain ⟨x, y, z, rfl⟩ := List.length_eq_three.mp hlang
    simp [Reader.Next]
  have h3 := readTillDelims_free enc.TerminationBytes e1 e2 hfree
  have h4 : Reader.Discard enc.TerminationBytes.length (enc.TerminationBytes ++ e2) =
      .ok (enc.TerminationBytes.length, e2) := by
    simp [Reader.Discard]
  simp only [parseUnsynchronisedLyricsFrame, h1, hkey, h2, h3, h4, bind, Except.bind, pure,
    Except.pure]

theorem writeTo_emitted (c : TextCodec) (uslf : UnsynchronisedLyricsFrame)
    (hlang : uslf.Language.length = 3) :
    (uslf.WriteTo c).emitted =
      [uslf.Encoding.Key] ++ uslf.Language ++ c.encode uslf.Encoding uslf.ContentDescriptor ++
        uslf.Encoding.TerminationBytes ++ c.encode uslf.Encoding uslf.Lyrics := by
  simp [UnsynchronisedLyricsFrame.WriteTo, hlang]

/-- C2. For a frame with a 3-byte language and a sink that accepts every write,
`WriteTo` returns no error and the count `Size()`, and the sink receives exactly
`Size()` bytes: the key byte, the three language bytes, the encoded content
descriptor, the terminator and the encoded lyrics. -/
theorem writeTo_count_eq_size (c : TextCodec) (uslf : UnsynchronisedLyricsFrame)
    (hlang : uslf.Language.length = 3) :
    (uslf.WriteTo c).err = none ∧
    (uslf.WriteTo c).n = uslf.Size c ∧
    (uslf.WriteTo c).emitted.length = uslf.Size c ∧
    (uslf.WriteTo c).emitted =
      [uslf.Encoding.Key] ++ uslf.Language ++ c.encode uslf.Encoding uslf.ContentDescriptor ++
        uslf.Encoding.TerminationBytes ++ c.encode uslf.Encoding uslf.Lyrics ∧
    uslf.Size c =
      1 + 3 + (c.encode uslf.Encoding uslf.ContentDescriptor).length +
        uslf.Encoding.TerminationBytes.length + (c.encode uslf.Encoding uslf.Lyrics).length := by
  simp [UnsynchronisedLyricsFrame.WriteTo, UnsynchronisedLyricsFrame.Size, encodedSize, hlang]
  omega

/-- An instance of C2: a UTF-16 lyrics frame of 14 bytes. -/
theorem writeTo_count_eq_size_witness :
    (⟨EncodingUTF16, [101, 110, 103], [97, 0], [104, 0, 105, 0]⟩ :
        UnsynchronisedLyricsFrame).Language.length = 3 ∧
    ((⟨EncodingUTF16, [101, 110, 103], [97, 0], [104, 0, 105, 0]⟩ :
        UnsynchronisedLyricsFrame).WriteTo plainCodec).n = 12 :=
  ⟨by decide,
   (writeTo_count_eq_size plainCodec ⟨EncodingUTF16, [101, 110, 103], [97, 0], [104, 0, 105, 0]⟩
      (by decide)).2.1.trans (by decide)⟩

/-- C1, as amended. For a frame whose encoding is one of the four legal ones,
whose language has exactly 3 bytes, whose encoded content descriptor is a whole
number of code units none of which is the terminator, and whose two text fields
survive encoding followed by decoding, parsing the bytes `WriteTo` emits
succeeds and returns the frame field for field. -/
theorem lyrics_roundtrip (c : TextCodec) (uslf : UnsynchronisedLyricsFrame)
    (henc : uslf.Encoding ∈ encodings) (hlang : uslf.Language.length = 3)
    (hfree : terminatorFree uslf.Encoding.TerminationBytes
      (c.encode uslf.Encoding uslf.ContentDescriptor) = true)
    (hcd : c.decode uslf.Encoding (c.encode uslf.Encoding uslf.ContentDescriptor) =
      uslf.ContentDescriptor)
    (hly : c.decode uslf.Encoding (c.encode uslf.Encoding uslf.Lyrics) = uslf.Lyrics) :
    parseUnsynchronisedLyricsFrame c (uslf.WriteTo c).emitted = .ok uslf := by
  have hkey : getEncoding uslf.Encoding.Key = uslf.Encoding := by
    simp only [encodings, List.mem_cons, List.mem_singleton, List.not_mem_nil, or_false] at henc
    rcases henc with h | h | h | h <;> rw [h] <;> rfl
  rw [writeTo_emitted c uslf hlang,
    parse_written c uslf.Encoding _ _ _ hkey hlang hfree, hcd, hly]

/-- An instance of C1 as amended: a UTF-16BE frame whose content descriptor
`00 61` holds a zero byte inside a code unit. -/
theorem lyrics_roundtrip_witness :
    parseUnsynchronisedLyricsFrame plainCodec
        ((⟨EncodingUTF16BE, [101, 110, 103], [0, 97], [0, 120, 0, 121]⟩ :
          UnsynchronisedLyricsFrame).WriteTo plainCodec).emitted =
      .ok ⟨EncodingUTF16BE, [101, 110, 103], [0, 97], [0, 120, 0, 121]⟩ :=
  lyrics_roundtrip plainCodec ⟨EncodingUTF16BE, [101, 110, 103], [0, 97], [0, 120, 0, 121]⟩
    (by decide) (by decide) (by decide) (by decide) (by decide)

/-- C1 as stated fails: a UTF-8 frame with language `eng` whose content
descriptor `a\0b` holds a zero byte is written as `03 eng a 00 b 00 x` and
parsed back with content descriptor `a` and lyrics `b\0x`. -/
theorem lyrics_roundtrip_fails :
    ¬ ∀ (c : TextCodec) (uslf : UnsynchronisedLyricsFrame),
        uslf.Encoding ∈ encodings → uslf.Language.length = 3 →
        parseUnsynchronisedLyricsFrame c (uslf.WriteTo c).emitted = .ok uslf := by
  intro h
  have h1 := h plainCodec ⟨EncodingUTF8, [101, 110, 103], [97, 0, 98], [120]⟩
    (by decide) (by decide)
  revert h1
  decide

/-! ## The comment sequence -/

theorem keys_mapSet {V : Type} (k : Bytes) (v : V) :
    ∀ m : List (Bytes × V),
      (mapSet m k v).map Prod.fst =
        if k ∈ m.map Prod.fst then m.map Prod.fst else m.map Prod.fst ++ [k] := by
  intro m
  induction m with
  | nil => simp [mapSet]
  | cons x t ih =>
    by_cases hx : x.1 = k
    · simp [mapSet, hx]
    · have hx2 : ¬ k = x.1 := fun h => hx h.symm
      by_cases hk : k ∈ t.map Prod.fst
      · simp only [mapSet, hx, if_false, List.map_cons, ih, if_pos hk, List.mem_cons, hk, or_true,
          if_true]
      · simp only [mapSet, hx, if_false, List.map_cons, ih, if_neg hk, List.mem_cons, hk, hx2,
          or_self, if_false, List.cons_append]

theorem mem_mapSet {V : Type} (k : Bytes) (v : V) :
    ∀ (m : List (Bytes × V)), (m.map Prod.fst).Nodup → ∀ (e : Bytes × V),
      (e ∈ mapSet m k v ↔ e = (k, v) ∨ (e ∈ m ∧ e.1 ≠ k)) := by
  intro m
  induction m with
  | nil => intro _ e; simp [mapSet]
  | cons x t ih =>
    intro hnd e
    have hnd2 := List.nodup_cons.mp hnd
    by_cases hx : x.1 = k
    · simp only [mapSet, hx, if_true, List.mem_cons]
      constructor
      · rintro (h | h)
        · exact Or.inl h
        · refine Or.inr ⟨Or.inr h, fun he => hnd2.1 ?_⟩
          rw [hx, ← he]
          exact List.mem_map_of_mem Prod.fst h
      · rintro (h | ⟨h | h, hne⟩)
        · exact Or.inl h
        · exact absurd (h ▸ hx) hne
        · exact Or.inr h
    · simp only [mapSet, hx, if_false, List.mem_cons, ih hnd2.2]
      constructor
      · rintro (h | h | ⟨h, hne⟩)
        · exact Or.inr ⟨Or.inl h, h ▸ hx⟩
        · exact Or.inl h
        · exact Or.inr ⟨Or.inr h, hne⟩
      · rintro (h | ⟨h | h, hne⟩)
        · exact Or.inr (Or.inl h)
        · exact Or.inl h
        · exact Or.inr (Or.inr ⟨h, hne⟩)

theorem nodup_keys_mapSet {V : Type} (k : Bytes) (v : V) (m : List (Bytes × V))
    (h : (m.map Prod.fst).Nodup) : ((mapSet m k v).map Prod.fst).Nodup := by
  rw [keys_mapSet]
  by_cases hk : k ∈ m.map Prod.fst
  · rw [if_pos hk]; exact h
  · rw [if_neg hk]
    exact List.Nodup.append h (List.nodup_singleton k) (by simpa using hk)

theorem mapGet_mapSet {V : Type} (k : Bytes) (v : V) :
    ∀ m : List (Bytes × V), mapGet (mapSet m k v) k = some v := by
  intro m
  induction m with
  | nil => simp [mapSet, mapGet]
  | cons x t ih =>
    by_cases hx : x.1 = k
    · simp [mapSet, mapGet, hx]
    · simp [mapSet, mapGet, hx, ih]

theorem SeqInv.addFrame {cs : commentSequence} {added : List CommentFrame}
    (h : SeqInv cs added) (cf : CommentFrame) : SeqInv (cs.AddFrame cf) (added ++ [cf]) := by
  refine ⟨nodup_keys_mapSet _ _ _ h.nodup, ?_, ?_⟩
  · intro e he
    rcases (mem_mapSet _ _ _ h.nodup e).mp he with h1 | ⟨h1, _⟩
    · rw [h1]; rfl
    · exact h.keyed e h1
  · intro k
    show k ∈ (mapSet cs.sequence (cf.Language ++ cf.Description) cf).map Prod.fst ↔ _
    rw [keys_mapSet]
    have hk := h.keys k
    by_cases hc : (cf.Language ++ cf.Description) ∈ cs.sequence.map Prod.fst
    · rw [if_pos hc]
      simp only [List.map_append, List.mem_append, List.map_cons, List.map_nil,
        List.mem_singleton, commentKey]
      constructor
      · intro hm; exact Or.inl (hk.mp hm)
      · rintro (hm | hm)
        · exact hk.mpr hm
        · rw [hm]; exact hc
    · rw [if_neg hc]
      simp only [List.map_append, List.mem_append, List.map_cons, List.map_nil,
        List.mem_singleton, commentKey]
      rw [hk]

theorem SeqInv.call {cs : commentSequence} {added : List CommentFrame}
    (h : SeqInv cs added) (c : SeqCall) : SeqInv (cs.call c) (added ++ addedFrames [c]) := by
  cases c with
  | add cf => exact h.addFrame cf
  | frames o =>
    simp only [addedFrames, List.append_nil]
    have hs : ((cs.Frames o).2).sequence = cs.sequence := by
      unfold commentSequence.Frames
      by_cases hc : cs.framesCache.length = 0 <;> simp [hc]
    exact ⟨by rw [show (cs.call (SeqCall.frames o)).sequence = cs.sequence from hs]; exact h.nodup,
      by rw [show (cs.call (SeqCall.frames o)).sequence = cs.sequence from hs]; exact h.keyed,
      by rw [show (cs.call (SeqCall.frames o)).sequence = cs.sequence from hs]; exact h.keys⟩

theorem addedFrames_append (l₁ l₂ : List SeqCall) :
    addedFrames (l₁ ++ l₂) = addedFrames l₁ ++ addedFrames l₂ := by
  induction l₁ with
  | nil => rfl
  | cons c t ih => cases c <;> simp [addedFrames, ih]

theorem SeqInv.foldl (calls : List SeqCall) :
    ∀ (cs : commentSequence) (added : List CommentFrame), SeqInv cs added →
      SeqInv (calls.foldl commentSequence.call cs) (added ++ addedFrames calls) := by
  induction calls with
  | nil => intro cs added h; simpa [addedFrames] using h
  | cons c t ih =>
    intro cs added h
    have h2 := ih (cs.call c) (added ++ addedFrames [c]) (h.call c)
    have e : addedFrames (c :: t) = addedFrames [c] ++ addedFrames t :=
      addedFrames_append [c] t
    rw [e, ← List.append_assoc]
    exact h2

theorem SeqInv.runCalls (calls : List SeqCall) : SeqInv (runCalls calls) (addedFrames calls) := by
  have h0 : SeqInv newCommentSequence [] :=
    ⟨List.nodup_nil, fun e he => (by cases he), fun k => (by simp [newCommentSequence])⟩
  simpa using SeqInv.foldl calls newCommentSequence [] h0

theorem filter_key_of_nodup {V : Type} (k : Bytes) (v : V) :
    ∀ m : List (Bytes × V), (m.map Prod.fst).Nodup → (k, v) ∈ m →
      m.filter (fun e => decide (e.1 = k)) = [(k, v)] := by
  intro m
  induction m with
  | nil => intro _ h; cases h
  | cons x t ih =>
    intro hnd hm
    have hnd2 := List.nodup_cons.mp hnd
    rcases List.mem_cons.mp hm with h | h
    · subst h
      have hnone : t.filter (fun e => decide (e.1 = k)) = [] := by
        rw [List.filter_eq_nil_iff]
        intro e he hek
        have hek2 : e.1 = k := by simpa using hek
        have hin : e.1 ∈ t.map Prod.fst := List.mem_map_of_mem Prod.fst he
        rw [hek2] at hin
        exact hnd2.1 hin
      simp [List.filter_cons, hnone]
    · have hx : x.1 ≠ k := by
        intro hxk
        have hin : (k, v).1 ∈ t.map Prod.fst := List.mem_map_of_mem Prod.fst h
        rw [hxk] at hnd2
        exact hnd2.1 hin
      simp [List.filter_cons, hx, ih hnd2.2 h]

theorem frames_after_add (o : MapOrder) (cs : commentSequence) (cf : CommentFrame) :
    ((cs.AddFrame cf).Frames o).1 =
      (o.order (cs.AddFrame cf).sequence).map Prod.snd := by
  simp [commentSequence.Frames, commentSequence.AddFrame]

/-- C3. After `AddFrame(a)` and then `AddFrame(b)` with the same language and
description, on any sequence reached by calls from the empty one, the map holds
exactly one entry under that key and it is `b`; `Frames()` holds exactly one
frame with that key, namely `b`, and does not hold `a` when `a` differs from
`b`; `Count()` is the number of distinct keys added so far, and it is 1 when
the sequence was empty. -/
theorem addFrame_last_write_wins (calls : List SeqCall) (o : MapOrder) (a b : CommentFrame)
    (hl : a.Language = b.Language) (hd : a.Description = b.Description) :
    (((runCalls calls).AddFrame a).AddFrame b).sequence.filter
        (fun e => decide (e.1 = commentKey b)) = [(commentKey b, b)] ∧
    ((((runCalls calls).AddFrame a).AddFrame b).Frames o).1.filter
        (fun f => decide (commentKey f = commentKey b)) = [b] ∧
    b ∈ ((((runCalls calls).AddFrame a).AddFrame b).Frames o).1 ∧
    (a ≠ b → a ∉ ((((runCalls calls).AddFrame a).AddFrame b).Frames o).1) ∧
    (((runCalls calls).AddFrame a).AddFrame b).Count =
      ((addedFrames calls ++ [a, b]).map commentKey).dedup.length ∧
    ((runCalls calls).Count = 0 → (((runCalls calls).AddFrame a).AddFrame b).Count = 1) := by
  have hab : commentKey a = commentKey b := by simp [commentKey, hl, hd]
  have inv := ((SeqInv.runCalls calls).addFrame a).addFrame b
  generalize hcs : ((runCalls calls).AddFrame a) = csa at inv ⊢
  have hmem : (commentKey b, b) ∈ (csa.AddFrame b).sequence := by
    have := (mem_mapSet (commentKey b) b csa.sequence
      (by rw [← hcs]; exact ((SeqInv.runCalls calls).addFrame a).nodup) (commentKey b, b)).mpr
      (Or.inl rfl)
    exact this
  have h1 := filter_key_of_nodup (commentKey b) b _ inv.nodup hmem
  have h2 : ((csa.AddFrame b).Frames o).1.filter
      (fun f => decide (commentKey f = commentKey b)) = [b] := by
    rw [frames_after_add, List.filter_map]
    have hperm := (o.perm (csa.AddFrame b).sequence).filter (fun e => decide (e.1 = commentKey b))
    rw [h1] at hperm
    have hcongr : (o.order (csa.AddFrame b).sequence).filter
        ((fun f => decide (commentKey f = commentKey b)) ∘ Prod.snd) =
        (o.order (csa.AddFrame b).sequence).filter (fun e => decide (e.1 = commentKey b)) := by
      apply List.filter_congr
      intro e he
      have hk := inv.keyed e ((o.perm _).mem_iff.mp he)
      simp [hk]
    rw [hcongr, List.perm_singleton.mp hperm]
    rfl
  have h3 : b ∈ ((csa.AddFrame b).Frames o).1 := by
    have : b ∈ ((csa.AddFrame b).Frames o).1.filter
        (fun f => decide (commentKey f = commentKey b)) := by rw [h2]; simp
    exact (List.mem_filter.mp this).1
  refine ⟨h1, h2, h3, ?_, ?_, ?_⟩
  · intro hne ha
    have : a ∈ ((csa.AddFrame b).Frames o).1.filter
        (fun f => decide (commentKey f = commentKey b)) :=
      List.mem_filter.mpr ⟨ha, by simp [hab]⟩
    rw [h2] at this
    exact hne (List.mem_singleton.mp this)
  · have hlen : (csa.AddFrame b).Count = ((csa.AddFrame b).sequence.map Prod.fst).length := by
      simp [commentSequence.Count]
    rw [hlen]
    apply List.Perm.length_eq
    apply (List.perm_ext_iff_of_nodup inv.nodup (List.nodup_dedup _)).mpr
    intro k
    rw [inv.keys k, List.mem_dedup]
    simp
  · intro h0
    have hnil : (runCalls calls).sequence = [] := List.length_eq_zero.mp h0
    subst hcs
    simp [commentSequence.Count, commentSequence.AddFrame, hnil, mapSet, hl, hd]

/-- An instance of C3: the comments `{eng, d, a}` and then `{eng, d, b}` added
to the empty sequence. -/
theorem addFrame_last_write_wins_witness :
    (((newCommentSequence.AddFrame ⟨EncodingUTF8, [101, 110, 103], [100], [97]⟩).AddFrame
        ⟨EncodingUTF8, [101, 110, 103], [100], [98]⟩).Frames MapOrder.stored).1.filter
        (fun f => decide (commentKey f = [101, 110, 103, 100])) =
      [⟨EncodingUTF8, [101, 110, 103], [100], [98]⟩] :=
  (addFrame_last_write_wins [] MapOrder.stored ⟨EncodingUTF8, [101, 110, 103], [100], [97]⟩
    ⟨EncodingUTF8, [101, 110, 103], [100], [98]⟩ rfl rfl).2.1

/-! ## Frame headers -/

theorem bufSlice_of_le (stale : Nat → Nat) (data : Bytes) (i j : Nat) (h : j ≤ data.length) :
    bufSlice stale data i j = (data.drop i).take (j - i) := by
  apply List.ext_getElem
  · simp [bufSlice]; omega
  · intro k h1 h2
    simp only [bufSlice, List.length_map, List.length_range] at h1
    simp [bufSlice, List.getD_eq_getElem?_getD, List.getElem?_eq_getElem (show i + k < data.length by omega)]

theorem synchsafeValue_lt (data : Bytes) (hlen : data.length = 4)
    (h : data.any (fun b => decide (128 ≤ b)) = false) : synchsafeValue data < 2 ^ 28 := by
  match data, hlen with
  | [a, b, c, d], _ =>
    simp only [List.any_cons, List.any_nil, Bool.or_false, Bool.or_eq_false_iff,
      decide_eq_false_iff_not, not_le] at h
    simp only [synchsafeValue, List.foldl_cons, List.foldl_nil]
    omega

theorem parseSize_bufSlice_lt (stale : Nat → Nat) (data : Bytes) (n : Nat)
    (h : ParseSize (bufSlice stale data 4 8) = .ok n) : n < 2 ^ 28 := by
  unfold ParseSize at h
  by_cases hany : (bufSlice stale data 4 8).any (fun b => decide (128 ≤ b)) = true
  · rw [if_pos hany] at h; cases h
  · rw [if_neg hany] at h
    have hn : synchsafeValue (bufSlice stale data 4 8) = n := by
      injection h
    rw [← hn]
    exact synchsafeValue_lt _ (by simp [bufSlice]) (by simpa using hany)

theorem parseFrameHeader_of_length (stale : Nat → Nat) (rd : Bytes) (h : 10 ≤ rd.length) :
    (parseFrameHeader stale rd).2 = rd.drop 10 ∧
    (parseFrameHeader stale rd).1 =
      (if ((rd.drop 4).take 4).any (fun b => decide (128 ≤ b)) then
        .error Error.InvalidSizeFormat
      else if rd.take 4 = [] ∨ synchsafeValue ((rd.drop 4).take 4) = 0 then
        .error Error.BlankFrame
      else .ok ⟨rd.take 4, synchsafeValue ((rd.drop 4).take 4)⟩) := by
  have hlen : 8 ≤ (rd.take frameHeaderSize).length := by
    simp [frameHeaderSize]; omega
  have hid : bufSlice stale (rd.take frameHeaderSize) 0 4 = rd.take 4 := by
    rw [bufSlice_of_le _ _ _ _ (by omega)]
    simp [frameHeaderSize, List.take_take]
  have hsz : bufSlice stale (rd.take frameHeaderSize) 4 8 = (rd.drop 4).take 4 := by
    rw [bufSlice_of_le _ _ _ _ hlen]
    simp [frameHeaderSize, List.drop_take, List.take_take]
  constructor
  · simp only [parseFrameHeader, frameHeaderSize]
    split <;> (try split) <;> rfl
  · simp only [parseFrameHeader, hid, hsz, ParseSize]
    by_cases h1 : ((rd.drop 4).take 4).any (fun b => decide (128 ≤ b)) = true
    · simp only [h1, if_true]
    · simp only [h1, Bool.false_eq_true, if_false]
      by_cases h2 : rd.take 4 = [] ∨ synchsafeValue ((rd.drop 4).take 4) = 0
      · simp only [h2, if_true]
      · simp only [h2, if_false]

/-- C5 fails on the code: the test `id == ""` is made on a 4-byte slice and
never holds. A header whose ID is four spaces, or four zero bytes, with the
size bytes `00 00 00 01`, comes back as an ordinary header of body size 1 with a
nil error, not as the `BlankFrame` sentinel. -/
theorem parseFrameHeader_blank_id :
    (∀ stale : Nat → Nat,
      parseFrameHeader stale [32, 32, 32, 32, 0, 0, 0, 1, 0, 0] =
        (.ok ⟨[32, 32, 32, 32], 1⟩, [])) ∧
    (∀ stale : Nat → Nat,
      parseFrameHeader stale [0, 0, 0, 0, 0, 0, 0, 1, 0, 0] = (.ok ⟨[0, 0, 0, 0], 1⟩, [])) := by
  constructor <;> intro stale <;>
    simp [parseFrameHeader, frameHeaderSize, bufSlice, ParseSize, synchsafeValue,
      List.range_succ]

/-- C10 fails on the code: a source that holds only the 8 bytes `TIT2 00 00 00
05` of a header is read to its end without an error (`ReadFrom` does not report
`io.EOF`), and the header `TIT2` with body size 5 is returned with a nil error,
whatever the pooled buffer held before. On a source with no bytes left the same
header is returned when those 8 bytes are what the pooled buffer held before. -/
theorem parseFrameHeader_short_read :
    (∀ stale : Nat → Nat,
      parseFrameHeader stale [84, 73, 84, 50, 0, 0, 0, 5] = (.ok ⟨[84, 73, 84, 50], 5⟩, [])) ∧
    parseFrameHeader (fun i => [84, 73, 84, 50, 0, 0, 0, 5].getD i 0) [] =
      (.ok ⟨[84, 73, 84, 50], 5⟩, []) := by
  constructor
  · intro stale
    simp [parseFrameHeader, frameHeaderSize, bufSlice, ParseSize, synchsafeValue,
      List.range_succ]
  · decide

/-! ## The byte reader -/

theorem splitDelim_append (d : Nat) (t : Bytes) :
    ∀ p : Bytes, d ∉ p → splitDelim d (p ++ d :: t) = some (p ++ [d], t) := by
  intro p
  induction p with
  | nil => intro _; simp [splitDelim]
  | cons x q ih =>
    intro h
    have hx : x ≠ d := fun hxd => h (by simp [hxd])
    have hq : d ∉ q := fun hq => h (List.mem_cons_of_mem _ hq)
    simp [splitDelim, hx, ih hq]

theorem first_occurrence (d : Nat) :
    ∀ bs : Bytes, d ∉ bs ∨ ∃ p q, bs = p ++ d :: q ∧ d ∉ p := by
  intro bs
  induction bs with
  | nil => exact Or.inl (List.not_mem_nil d)
  | cons x t ih =>
    by_cases hx : x = d
    · exact Or.inr ⟨[], t, by simp [hx], List.not_mem_nil d⟩
    · rcases ih with h | ⟨p, q, hpq, hp⟩
      · left
        intro hm
        rcases List.mem_cons.mp hm with h1 | h1
        · exact hx h1.symm
        · exact h h1
      · right
        refine ⟨x :: p, q, by simp [hpq], ?_⟩
        intro hm
        rcases List.mem_cons.mp hm with h1 | h1
        · exact hx h1.symm
        · exact hp h1

theorem adjacentFree_tail (d x : Nat) (l : Bytes) (h : adjacentFree d (x :: l) = true) :
    adjacentFree d l = true := by
  cases l with
  | nil => rfl
  | cons y t =>
    simp only [adjacentFree, Bool.and_eq_true] at h
    exact h.2

theorem adjacentFree_suffix (d : Nat) (l : Bytes) :
    ∀ p : Bytes, adjacentFree d (p ++ l) = true → adjacentFree d l = true := by
  intro p
  induction p with
  | nil => intro h; exact h
  | cons x q ih => intro h; exact ih (adjacentFree_tail d x (q ++ l) h)

theorem readDelimsLoop_same (d : Nat) (rest : Bytes) :
    ∀ (fuel : Nat) (bs buf : Bytes), bs.length < fuel → adjacentFree d (bs ++ [d]) = true →
      readDelimsLoop d [d] fuel buf (bs ++ d :: d :: rest) =
        some ⟨buf ++ bs ++ [d, d], none, rest⟩ := by
  intro fuel
  induction fuel with
  | zero => intro bs buf h _; omega
  | succ fuel ih =>
    intro bs buf hlen hfree
    rcases first_occurrence d bs with hno | ⟨p, q, hpq, hp⟩
    · have hs := splitDelim_append d (d :: rest) bs hno
      simp [readDelimsLoop, Reader.ReadTillAndWithDelim, hs, Reader.ReadBytes, defaultBufSize]
    · subst hpq
      have hsuf : adjacentFree d (d :: (q ++ [d])) = true := by
        apply adjacentFree_suffix d _ p
        simpa using hfree
      match q, hsuf, hlen with
      | [], hsuf, _ => simp [adjacentFree] at hsuf
      | y :: q2, hsuf, hlen =>
        have hy : y ≠ d := by
          intro hyd
          simp [adjacentFree, hyd] at hsuf
        have hfree2 : adjacentFree d (q2 ++ [d]) = true :=
          adjacentFree_tail d y _ (adjacentFree_tail d d _ hsuf)
        have hs := splitDelim_append d (y :: (q2 ++ d :: d :: rest)) p hp
        have hlen2 : q2.length < fuel := by
          simp at hlen; omega
        have hrec := ih q2 (buf ++ (p ++ [d]) ++ [y]) hlen2 hfree2
        have happ : (p ++ d :: y :: q2) ++ d :: d :: rest =
            p ++ d :: (y :: (q2 ++ d :: d :: rest)) := by simp
        rw [happ]
        simp only [readDelimsLoop, Reader.ReadTillAndWithDelim, hs, Reader.ReadBytes,
          defaultBufSize]
        simp [hy]
        simpa using hrec

theorem codeUnits_length_even (units : List (Nat × Nat)) : (codeUnits units).length % 2 = 0 := by
  induction units with
  | nil => rfl
  | cons u t ih => simp only [codeUnits, List.length_cons]; omega

theorem adjacentFree_codeUnits :
    ∀ units : List (Nat × Nat), (∀ u ∈ units, u ≠ (0, 0)) → straddleFree units = true →
      adjacentFree 0 (codeUnits units ++ [0]) = true := by
  intro units
  induction units with
  | nil => intro _ _; rfl
  | cons u t ih =>
    intro hunits hstr
    have hu : ¬ (u.1 = 0 ∧ u.2 = 0) := fun h =>
      hunits u (List.mem_cons_self _ _) (Prod.ext h.1 h.2)
    have hrest := fun hs => ih (fun v hv => hunits v (List.mem_cons_of_mem _ hv)) hs
    cases t with
    | nil =>
      have h2 : u.2 ≠ 0 := by simpa [straddleFree] using hstr
      simp [codeUnits, adjacentFree, h2]
    | cons v t2 =>
      simp only [straddleFree, Bool.and_eq_true, Bool.not_eq_true', Bool.and_eq_false_iff,
        beq_eq_false_iff_ne, ne_eq] at hstr
      have hnext := hrest hstr.2
      simp only [codeUnits, List.cons_append] at hnext ⊢
      have e1 : adjacentFree 0 (u.1 :: u.2 :: v.1 :: v.2 :: (codeUnits t2 ++ [0])) =
          (!(u.1 == 0 && u.2 == 0) &&
            (!(u.2 == 0 && v.1 == 0) &&
              adjacentFree 0 (v.1 :: v.2 :: (codeUnits t2 ++ [0])))) := rfl
      rw [e1, hnext]
      simp only [Bool.and_true, Bool.and_eq_true, Bool.not_eq_true', Bool.and_eq_false_iff,
        beq_eq_false_iff_ne, ne_eq]
      refine ⟨?_, hstr.1⟩
      by_cases h1 : u.1 = 0
      · right; exact fun h2 => hu ⟨h1, h2⟩
      · left; exact h1

/-- C7, as amended. For an input made of 2-byte code units, none of them equal
to `00 00`, in which no code unit ending in a zero byte is directly followed by
a zero byte (the first byte of the next unit or of the terminator), followed by
the terminator `00 00` and any further bytes, `ReadTillAndWithDelims` with the
delimiter `00 00` returns exactly those code units followed by the terminator,
a result of even length, and leaves the further bytes unread. -/
theorem readTillAndWithDelims_units (units : List (Nat × Nat)) (rest : Bytes)
    (hunits : ∀ u ∈ units, u ≠ (0, 0))
    (hstraddle : straddleFree units = true) :
    Reader.ReadTillAndWithDelims [0, 0] (codeUnits units ++ [0, 0] ++ rest) =
      some ⟨codeUnits units ++ [0, 0], none, rest⟩ ∧
    (codeUnits units ++ [0, 0]).length % 2 = 0 := by
  have hfree := adjacentFree_codeUnits units hunits hstraddle
  constructor
  · have h := readDelimsLoop_same 0 rest
      ((codeUnits units ++ [0, 0] ++ rest).length + 1) (codeUnits units) []
      (by simp; omega) hfree
    simpa [Reader.ReadTillAndWithDelims] using h
  · have := codeUnits_length_even units
    simp only [List.length_append, List.length_cons, List.length_nil]
    omega

/-- An instance of C7 as amended: the code units `00 41` and `42 43`; the zero
byte at the even offset 0 does not end the scan. -/
theorem readTillAndWithDelims_units_witness :
    Reader.ReadTillAndWithDelims [0, 0] [0, 65, 66, 67, 0, 0, 9] =
      some ⟨[0, 65, 66, 67, 0, 0], none, [9]⟩ :=
  (readTillAndWithDelims_units [(0, 65), (66, 67)] [9] (by decide) (by decide)).1

/-- C7 as stated fails: on the code unit `41 00` followed by the terminator
`00 00` the scan stops at the zero byte at offset 1 and returns the three bytes
`41 00 00`, leaving the second terminator byte unread. -/
theorem readTillAndWithDelims_unaligned :
    (∀ u ∈ [((65 : Nat), (0 : Nat))], u ≠ (0, 0)) ∧
    Reader.ReadTillAndWithDelims [0, 0] (codeUnits [(65, 0)] ++ [0, 0] ++ []) =
      some ⟨[65, 0, 0], none, [0]⟩ ∧
    Reader.ReadTillAndWithDelims [0, 0] (codeUnits [(65, 0)] ++ [0, 0] ++ []) ≠
      some ⟨codeUnits [(65, 0)] ++ [0, 0], none, []⟩ := by
  decide

/-! ## The parse loop -/

theorem parseFrameHeader_wire (stale : Nat → Nat) (f : RawFrame) (tail : Bytes)
    (h : f.headerOk = true) :
    parseFrameHeader stale (f.id ++ f.size ++ f.flags ++ tail) =
      (.ok ⟨f.id, synchsafeValue f.size⟩, tail) := by
  simp only [RawFrame.headerOk, Bool.and_eq_true, decide_eq_true_eq, Bool.not_eq_true'] at h
  obtain ⟨⟨⟨⟨h1, h2⟩, h3⟩, h4⟩, h5⟩ := h
  have hlen : 10 ≤ (f.id ++ f.size ++ f.flags ++ tail).length := by
    simp only [List.length_append]; omega
  have hfull := parseFrameHeader_of_length stale _ hlen
  have hid : (f.id ++ f.size ++ f.flags ++ tail).take 4 = f.id := by
    rw [List.append_assoc, List.append_assoc, List.take_left' h1]
  have hsz : ((f.id ++ f.size ++ f.flags ++ tail).drop 4).take 4 = f.size := by
    rw [List.append_assoc, List.append_assoc, List.drop_left' h1, List.take_left' h2]
  have hdrop : (f.id ++ f.size ++ f.flags ++ tail).drop 10 = tail := by
    apply List.drop_left'
    simp only [List.length_append]; omega
  have hidne : f.id ≠ [] := by
    intro h0; rw [h0] at h1; simp at h1
  apply Prod.ext
  · rw [hfull.2, hid, hsz, h4]
    simp [hidne, h5]
  · rw [hfull.1, hdrop]

theorem parseLoop_succ {F : Type} (P : FrameParsers F) (stale : Nat → Nat → Nat)
    (parseIDs : List Bytes) (fuel i : Nat) (framesSize : Int) (t : Tag F)
    (hpos : 0 < framesSize) :
    parseLoop P stale parseIDs (fuel + 1) i framesSize t =
      match (parseFrameHeader (stale i) t.reader).1 with
      | .error err =>
        if err = Error.EOF ∨ err = Error.BlankFrame ∨ err = Error.InvalidSizeFormat then
          some ⟨none, { t with reader := (parseFrameHeader (stale i) t.reader).2 }, framesSize⟩
        else some ⟨some err, { t with reader := (parseFrameHeader (stale i) t.reader).2 }, framesSize⟩
      | .ok header =>
        if 0 < parseIDs.length ∧ header.ID ∉ parseIDs then
          parseLoop P stale parseIDs fuel (i + 1)
            (framesSize - ((frameHeaderSize : Int) + (header.BodySize : Int)))
            { t with reader := (parseFrameHeader (stale i) t.reader).2.drop header.BodySize }
        else
          let bodyRd := (parseFrameHeader (stale i) t.reader).2.take header.BodySize
          let r := parseFrameBody P header.ID bodyRd
          let t2 : Tag F :=
            { t with reader := (parseFrameHeader (stale i) t.reader).2.drop (min r.used bodyRd.length) }
          if r.err ≠ none ∧ r.err ≠ some Error.EOF then
            some ⟨r.err, t2, framesSize - ((frameHeaderSize : Int) + (header.BodySize : Int))⟩
          else if r.err = some Error.EOF then
            some ⟨none, t2.AddFrame header.ID r.frame,
              framesSize - ((frameHeaderSize : Int) + (header.BodySize : Int))⟩
          else
            parseLoop P stale parseIDs fuel (i + 1)
              (framesSize - ((frameHeaderSize : Int) + (header.BodySize : Int)))
              (t2.AddFrame header.ID r.frame) := by
  rw [parseLoop]
  simp only [not_le.mpr hpos, if_false]

theorem parseLoop_zero {F : Type} (P : FrameParsers F) (stale : Nat → Nat → Nat)
    (parseIDs : List Bytes) (fuel i : Nat) (framesSize : Int) (t : Tag F)
    (hle : framesSize ≤ 0) :
    parseLoop P stale parseIDs fuel i framesSize t = some ⟨none, t, framesSize⟩ := by
  cases fuel <;> simp [parseLoop, hle]

theorem selected_eq_false {parseIDs : List Bytes} {id : Bytes} :
    selected parseIDs id = false ↔ (0 < parseIDs.length ∧ id ∉ parseIDs) := by
  unfold selected
  by_cases h1 : 0 < parseIDs.length <;> by_cases h2 : id ∈ parseIDs <;> simp [h1, h2]

theorem selected_eq_true {parseIDs : List Bytes} {id : Bytes} :
    selected parseIDs id = true ↔ ¬ (0 < parseIDs.length ∧ id ∉ parseIDs) := by
  unfold selected
  by_cases h1 : 0 < parseIDs.length <;> by_cases h2 : id ∈ parseIDs <;> simp [h1, h2]

theorem parseLoop_step {F : Type} (P : FrameParsers F) (stale : Nat → Nat → Nat)
    (parseIDs : List Bytes) (fuel i : Nat) (framesSize : Int) (t : Tag F)
    (f : RawFrame) (rest : Bytes) (hpos : 0 < framesSize) (hf : f.complete = true)
    (hrd : t.reader = f.wire ++ rest)
    (hok : selected parseIDs f.id = true →
      (parseFrameBody P f.id f.body).err = none ∧
        f.body.length ≤ (parseFrameBody P f.id f.body).used) :
    parseLoop P stale parseIDs (fuel + 1) i framesSize t =
      parseLoop P stale parseIDs fuel (i + 1)
        (framesSize - ((frameHeaderSize : Int) + (synchsafeValue f.size : Int)))
        { t with reader := rest, added := t.added ++ addedBy P parseIDs [f] } := by
  simp only [RawFrame.complete, Bool.and_eq_true, decide_eq_true_eq] at hf
  obtain ⟨hh, hbody⟩ := hf
  have hhdr := parseFrameHeader_wire (stale i) f (f.body ++ rest) hh
  have hrd2 : t.reader = f.id ++ f.size ++ f.flags ++ (f.body ++ rest) := by
    rw [hrd]; simp [RawFrame.wire]
  rw [parseLoop_succ P stale parseIDs fuel i framesSize t hpos, hrd2, hhdr]
  have hdrop : (f.body ++ rest).drop (synchsafeValue f.size) = rest := by
    rw [hbody]; exact List.drop_left f.body rest
  have htake : (f.body ++ rest).take (synchsafeValue f.size) = f.body := by
    rw [hbody]; exact List.take_left f.body rest
  by_cases hsel : selected parseIDs f.id = true
  · have hsel2 := selected_eq_true.mp hsel
    obtain ⟨herr, hused⟩ := hok hsel
    simp only [hsel2, if_false, htake, herr, ne_eq, not_true_eq_false, false_and,
      Nat.min_eq_right hused, Tag.AddFrame, addedBy, hsel, if_true]
    simp only [reduceCtorEq, if_false]
    rw [← hbody, hdrop]
  · have hsel3 : selected parseIDs f.id = false := by simpa using hsel
    have hsel2 := selected_eq_false.mp hsel3
    simp only [hsel2.1, hsel2.2, not_false_eq_true, and_self, if_true, hdrop, addedBy, hsel3,
      Bool.false_eq_true, if_false, List.append_nil]

theorem parseLoop_frames {F : Type} (P : FrameParsers F) (stale : Nat → Nat → Nat)
    (parseIDs : List Bytes) (tail : Bytes) :
    ∀ (fs : List RawFrame) (fuel i : Nat) (framesSize : Int) (t : Tag F),
      (∀ f ∈ fs, f.complete = true) →
      budgetCovers framesSize fs = true →
      framesSize.toNat ≤ fuel →
      (∀ f ∈ fs, selected parseIDs f.id = true →
        (parseFrameBody P f.id f.body).err = none ∧
          f.body.length ≤ (parseFrameBody P f.id f.body).used) →
      t.reader = wireFrames fs ++ tail →
      parseLoop P stale parseIDs fuel i framesSize t =
        parseLoop P stale parseIDs (fuel - fs.length) (i + fs.length) (budgetAfter framesSize fs)
          { t with reader := tail, added := t.added ++ addedBy P parseIDs fs } := by
  intro fs
  induction fs with
  | nil =>
    intro fuel i framesSize t _ _ _ _ hrd
    have ht : ({ t with reader := tail, added := t.added ++ addedBy P parseIDs [] } : Tag F) = t := by
      cases t
      simp only [wireFrames, List.nil_append] at hrd
      simp [addedBy, hrd]
    rw [ht]
    rfl
  | cons f fs ih =>
    intro fuel i framesSize t hcomplete hbudget hfuel hok hrd
    simp only [budgetCovers, Bool.and_eq_true, decide_eq_true_eq] at hbudget
    obtain ⟨hpos, hbudget2⟩ := hbudget
    obtain ⟨fuel2, rfl⟩ : ∃ k, fuel = k + 1 := ⟨fuel - 1, by omega⟩
    have hstep := parseLoop_step P stale parseIDs fuel2 i framesSize t f (wireFrames fs ++ tail)
      hpos (hcomplete f (List.mem_cons_self _ _)) (by rw [hrd]; simp [wireFrames])
      (hok f (List.mem_cons_self _ _))
    rw [hstep]
    have hrec := ih fuel2 (i + 1)
      (framesSize - ((frameHeaderSize : Int) + (synchsafeValue f.size : Int)))
      { t with reader := wireFrames fs ++ tail, added := t.added ++ addedBy P parseIDs [f] }
      (fun g hg => hcomplete g (List.mem_cons_of_mem _ hg)) hbudget2
      (by simp only [frameHeaderSize]; omega)
      (fun g hg => hok g (List.mem_cons_of_mem _ hg)) rfl
    rw [hrec]
    have hadd : addedBy P parseIDs (f :: fs) = addedBy P parseIDs [f] ++ addedBy P parseIDs fs := by
      simp only [addedBy]
      split <;> simp
    simp only [List.length_cons, budgetAfter, hadd, List.append_assoc, Nat.add_sub_add_right]
    rw [show i + 1 + fs.length = i + (fs.length + 1) by omega]

theorem budgetAfter_toNat (fs : List RawFrame) :
    ∀ framesSize : Int, budgetCovers framesSize fs = true →
      (budgetAfter framesSize fs).toNat + fs.length ≤ framesSize.toNat := by
  induction fs with
  | nil => intro framesSize _; simp [budgetAfter]
  | cons f fs ih =>
    intro framesSize h
    simp only [budgetCovers, Bool.and_eq_true, decide_eq_true_eq] at h
    have h2 := ih _ h.2
    simp only [budgetAfter, List.length_cons]
    simp only [frameHeaderSize] at h2 ⊢
    omega

theorem parseFrameHeader_softStop (stale : Nat → Nat) (h rest : Bytes)
    (hstop : softStop h = true) :
    (parseFrameHeader stale (h ++ rest)).2 = rest ∧
    ((parseFrameHeader stale (h ++ rest)).1 = .error Error.InvalidSizeFormat ∨
      (parseFrameHeader stale (h ++ rest)).1 = .error Error.BlankFrame) := by
  simp only [softStop, Bool.and_eq_true, decide_eq_true_eq, Bool.or_eq_true] at hstop
  obtain ⟨hlen, hcase⟩ := hstop
  have hfull := parseFrameHeader_of_length stale (h ++ rest) (by simp; omega)
  have hsz : ((h ++ rest).drop 4).take 4 = (h.drop 4).take 4 := by
    rw [List.drop_append_of_le_length (by omega), List.take_append_of_le_length (by simp; omega)]
  refine ⟨?_, ?_⟩
  · rw [hfull.1, ← hlen]; exact List.drop_left h rest
  · rw [hfull.2, hsz]
    by_cases h1 : ((h.drop 4).take 4).any (fun b => decide (128 ≤ b)) = true
    · left; simp [h1]
    · right
      rcases hcase with h2 | h2
      · exact absurd h2 h1
      · simp [h1, h2]

theorem parseLoop_softStop {F : Type} (P : FrameParsers F) (stale : Nat → Nat → Nat)
    (parseIDs : List Bytes) (fuel i : Nat) (framesSize : Int) (t : Tag F) (h rest : Bytes)
    (hfuel : framesSize.toNat ≤ fuel) (hstop : softStop h = true) (hrd : t.reader = h ++ rest) :
    ∃ r, parseLoop P stale parseIDs fuel i framesSize t = some r ∧ r.err = none ∧
      r.tag.added = t.added ∧ r.framesSize = framesSize ∧
      r.tag.reader = if 0 < framesSize then rest else h ++ rest := by
  by_cases hpos : 0 < framesSize
  · obtain ⟨fuel2, rfl⟩ : ∃ k, fuel = k + 1 := ⟨fuel - 1, by omega⟩
    have hh := parseFrameHeader_softStop (stale i) h rest hstop
    rw [parseLoop_succ P stale parseIDs fuel2 i framesSize t hpos, hrd]
    rcases hh.2 with h1 | h1 <;> rw [h1] <;>
      exact ⟨⟨none, { t with reader := (parseFrameHeader (stale i) (h ++ rest)).2 }, framesSize⟩,
        by simp, rfl, rfl, rfl, by simp [hpos, hh.1]⟩
  · exact ⟨_, parseLoop_zero P stale parseIDs fuel i framesSize t (not_lt.mp hpos), rfl, rfl, rfl,
      by simp [hpos, hrd]⟩

theorem addedBy_all_selected {F : Type} (P : FrameParsers F) (parseIDs : List Bytes) :
    ∀ fs : List RawFrame, (∀ f ∈ fs, selected parseIDs f.id = true) →
      addedBy P parseIDs fs = fs.map (fun f => (f.id, (parseFrameBody P f.id f.body).frame)) := by
  intro fs
  induction fs with
  | nil => intro _; rfl
  | cons f fs ih =>
    intro h
    simp only [addedBy, h f (List.mem_cons_self _ _), if_true, List.map_cons,
      ih (fun g hg => h g (List.mem_cons_of_mem _ hg))]

/-- C6. When the source holds `k` complete frames, each starting while the
budget is positive and each parsed without error by a parser that reads its
body to the end, followed by ten bytes that make a blank header (zero size) or
a header with a size byte whose high bit is set, `parseAllFrames` returns a nil
error and `AddFrame` has been called for exactly those `k` frames, in order,
each with the frame its body parsed to. -/
theorem parseAllFrames_soft_stop {F : Type} (P : FrameParsers F) (stale : Nat → Nat → Nat)
    (commonID : Bytes → Bytes) (t : Tag F) (opts : Options) (fs : List RawFrame)
    (h rest : Bytes)
    (hcomplete : ∀ f ∈ fs, f.complete = true)
    (hbudget : budgetCovers (t.originalSize - tagHeaderSize) fs = true)
    (hsel : ∀ f ∈ fs, selected (opts.ParseFrames.map commonID) f.id = true)
    (hok : ∀ f ∈ fs, (parseFrameBody P f.id f.body).err = none ∧
      f.body.length ≤ (parseFrameBody P f.id f.body).used)
    (hstop : softStop h = true)
    (hrd : t.reader = wireFrames fs ++ (h ++ rest)) :
    ∃ r, t.parseAllFrames P stale commonID opts = some r ∧ r.err = none ∧
      r.tag.added =
        t.added ++ fs.map (fun f => (f.id, (parseFrameBody P f.id f.body).frame)) := by
  unfold Tag.parseAllFrames
  simp only
  rw [parseLoop_frames P stale _ (h ++ rest) fs _ 0 _ t hcomplete hbudget (Nat.le_refl _)
    (fun f hf _ => hok f hf) hrd]
  have hfuel := budgetAfter_toNat fs _ hbudget
  obtain ⟨r, hr, herr, hadded, _, _⟩ := parseLoop_softStop P stale (opts.ParseFrames.map commonID)
    ((t.originalSize - tagHeaderSize).toNat - fs.length) (0 + fs.length)
    (budgetAfter (t.originalSize - tagHeaderSize) fs)
    { t with reader := h ++ rest,
             added := t.added ++ addedBy P (opts.ParseFrames.map commonID) fs }
    h rest (by omega) hstop rfl
  refine ⟨r, hr, herr, ?_⟩
  rw [hadded, addedBy_all_selected P _ fs hsel]

/-- An instance of C6: the two sample frames followed by ten zero bytes of
padding and two more bytes, in a frame area of 40 bytes. -/
theorem parseAllFrames_soft_stop_witness :
    ∃ r, (sampleTag 40 (wireFrames sampleFrames ++ ([0, 0, 0, 0, 0, 0, 0, 0, 0, 0] ++ [1, 2]))).parseAllFrames
        (stockParsers plainCodec) (fun _ _ => 0) (fun d => d) ⟨true, []⟩ = some r ∧
      r.err = none ∧
      r.tag.added =
        [([84, 73, 84, 50], some (Frame.text EncodingUTF8 [65])),
         ([88, 88, 88, 88], some (Frame.unknown [9]))] :=
  parseAllFrames_soft_stop (stockParsers plainCodec) (fun _ _ => 0) (fun d => d)
    (sampleTag 40 (wireFrames sampleFrames ++ ([0, 0, 0, 0, 0, 0, 0, 0, 0, 0] ++ [1, 2])))
    ⟨true, []⟩ sampleFrames [0, 0, 0, 0, 0, 0, 0, 0, 0, 0] [1, 2]
    (by decide) (by decide) (by decide) (by decide) (by decide) rfl

/-- C9 fails on the code: a lyrics frame declares 20 body bytes, the source
ends after 7 of them (inside the lyrics) and the frame area has room left. The
body parser returns the frame read so far with a nil error, so the loop does
not stop: it reads the next header from the exhausted source, which
`parseFrameHeader` does not report, and gets the header the pooled buffer still
holds; the body parser then reports `io.EOF` and `AddFrame` is called a second
time under `USLT`, with a nil frame. -/
theorem parseAllFrames_truncated_goes_on :
    ∃ r, (sampleTag 100 ([85, 83, 76, 84, 0, 0, 0, 20, 0, 0] ++
          [3, 101, 110, 103, 97, 0, 98])).parseAllFrames
        (stockParsers plainCodec)
        (fun _ i => ([85, 83, 76, 84, 0, 0, 0, 20, 0, 0] : Bytes).getD i 0)
        (fun d => d) ⟨true, []⟩ = some r ∧
      r.err = none ∧
      r.tag.added =
        [([85, 83, 76, 84], some (Frame.lyrics ⟨EncodingUTF8, [101, 110, 103], [97], [98]⟩)),
         ([85, 83, 76, 84], none)] ∧
      r.framesSize = 40 :=
  ⟨_, rfl, rfl, rfl, rfl⟩

theorem parseLoop_added_selected {F : Type} (P : FrameParsers F) (stale : Nat → Nat → Nat)
    (parseIDs : List Bytes) :
    ∀ (fuel i : Nat) (framesSize : Int) (t : Tag F) (r : LoopEnd F),
      parseLoop P stale parseIDs fuel i framesSize t = some r →
      ∀ e ∈ r.tag.added, e ∈ t.added ∨ selected parseIDs e.1 = true := by
  intro fuel
  induction fuel with
  | zero =>
    intro i framesSize t r hr e he
    by_cases hpos : 0 < framesSize
    · simp [parseLoop] at hr
      omega
    · rw [parseLoop_zero _ _ _ _ _ _ _ (not_lt.mp hpos)] at hr
      injection hr with hr
      subst hr
      exact Or.inl he
  | succ fuel ih =>
    intro i framesSize t r hr e he
    by_cases hpos : 0 < framesSize
    · rw [parseLoop_succ _ _ _ _ _ _ _ hpos] at hr
      cases hhdr : (parseFrameHeader (stale i) t.reader).1 with
      | error err =>
        rw [hhdr] at hr
        simp only at hr
        split at hr <;> (injection hr with hr; subst hr; exact Or.inl he)
      | ok header =>
        rw [hhdr] at hr
        simp only at hr
        by_cases hskip : 0 < parseIDs.length ∧ header.ID ∉ parseIDs
        · rw [if_pos hskip] at hr
          exact ih _ _ _ r hr e he
        · rw [if_neg hskip] at hr
          have hselh : selected parseIDs header.ID = true := selected_eq_true.mpr hskip
          split at hr
          · injection hr with hr; subst hr; exact Or.inl he
          · split at hr
            · injection hr with hr
              subst hr
              simp only [Tag.AddFrame, List.mem_append, List.mem_singleton] at he
              rcases he with he | he
              · exact Or.inl he
              · right; rw [he]; exact hselh
            · rcases ih _ _ _ r hr e he with h1 | h1
              · simp only [Tag.AddFrame, List.mem_append, List.mem_singleton] at h1
                rcases h1 with h1 | h1
                · exact Or.inl h1
                · right; rw [h1]; exact hselh
              · exact Or.inr h1
    · rw [parseLoop_zero _ _ _ _ _ _ _ (not_lt.mp hpos)] at hr
      injection hr with hr
      subst hr
      exact Or.inl he

theorem addedBy_filter {F : Type} (P : FrameParsers F) (parseIDs : List Bytes)
    (hne : 0 < parseIDs.length) :
    ∀ fs : List RawFrame,
      addedBy P parseIDs fs =
        (fs.map (fun f => (f.id, (parseFrameBody P f.id f.body).frame))).filter
          (fun e => decide (e.1 ∈ parseIDs)) := by
  intro fs
  induction fs with
  | nil => rfl
  | cons f fs ih =>
    by_cases hm : f.id ∈ parseIDs
    · have hs : selected parseIDs f.id = true := selected_eq_true.mpr (fun h => h.2 hm)
      simp [addedBy, hs, ih, List.filter_cons, hm]
    · have hs : selected parseIDs f.id = false := selected_eq_false.mpr ⟨hne, hm⟩
      simp [addedBy, hs, ih, List.filter_cons, hm]

theorem parseLoop_skip {F : Type} (P : FrameParsers F) (stale : Nat → Nat → Nat)
    (parseIDs : List Bytes) (fuel i : Nat) (framesSize : Int) (t : Tag F)
    (f : RawFrame) (tail : Bytes) (hpos : 0 < framesSize) (hf : f.headerOk = true)
    (hsel : selected parseIDs f.id = false)
    (hrd : t.reader = f.id ++ f.size ++ f.flags ++ tail) :
    parseLoop P stale parseIDs (fuel + 1) i framesSize t =
      parseLoop P stale parseIDs fuel (i + 1)
        (framesSize - ((frameHeaderSize : Int) + (synchsafeValue f.size : Int)))
        { t with reader := t.reader.drop (frameHeaderSize + synchsafeValue f.size) } := by
  have hhdr := parseFrameHeader_wire (stale i) f tail hf
  have hsel2 := selected_eq_false.mp hsel
  have hlen : (f.id ++ f.size ++ f.flags).length = frameHeaderSize := by
    simp only [RawFrame.headerOk, Bool.and_eq_true, decide_eq_true_eq] at hf
    simp only [List.length_append, frameHeaderSize]
    omega
  have hdrop : (f.id ++ f.size ++ f.flags ++ tail).drop (frameHeaderSize + synchsafeValue f.size) =
      tail.drop (synchsafeValue f.size) := by
    rw [← hlen, ← List.drop_drop, List.drop_left]
  rw [parseLoop_succ P stale parseIDs fuel i framesSize t hpos, hrd, hhdr, hdrop]
  simp only [hsel2.1, hsel2.2, not_false_eq_true, and_self, if_true]

/-- C8, as amended. With a non-empty allow-list, (1) every `AddFrame` call
`parseAllFrames` makes is for an ID in the allow-list, whatever the source
holds; (2) at a frame header whose ID is not in the allow-list the loop moves on
with the source advanced by 10 plus `BodySize` bytes (to its end when fewer
remain) and nothing added; (3) on a source of complete frames that all parse
without error in the parse with no allow-list, each parser reading its body to
the end, followed by a soft stop, the filtered parse makes exactly those
`AddFrame` calls of the unfiltered parse whose ID is in the allow-list, with
the same frames, and ends at the same position of the source. -/
theorem parseAllFrames_filter {F : Type} (P : FrameParsers F) (stale : Nat → Nat → Nat)
    (commonID : Bytes → Bytes) (opts : Options) (hne : opts.ParseFrames ≠ []) :
    (∀ (t : Tag F) (r : LoopEnd F), t.parseAllFrames P stale commonID opts = some r →
      ∀ e ∈ r.tag.added, e ∈ t.added ∨ e.1 ∈ opts.ParseFrames.map commonID) ∧
    (∀ (fuel i : Nat) (framesSize : Int) (t : Tag F) (f : RawFrame) (tail : Bytes),
      0 < framesSize → f.headerOk = true → f.id ∉ opts.ParseFrames.map commonID →
      t.reader = f.id ++ f.size ++ f.flags ++ tail →
      parseLoop P stale (opts.ParseFrames.map commonID) (fuel + 1) i framesSize t =
        parseLoop P stale (opts.ParseFrames.map commonID) fuel (i + 1)
          (framesSize - ((frameHeaderSize : Int) + (synchsafeValue f.size : Int)))
          { t with reader := t.reader.drop (frameHeaderSize + synchsafeValue f.size) }) ∧
    (∀ (t : Tag F) (fs : List RawFrame) (h rest : Bytes),
      (∀ f ∈ fs, f.complete = true) →
      budgetCovers (t.originalSize - tagHeaderSize) fs = true →
      (∀ f ∈ fs, (parseFrameBody P f.id f.body).err = none ∧
        f.body.length ≤ (parseFrameBody P f.id f.body).used) →
      softStop h = true →
      t.reader = wireFrames fs ++ (h ++ rest) →
      ∃ r₀ r₁,
        t.parseAllFrames P stale commonID ⟨opts.Parse, []⟩ = some r₀ ∧
        t.parseAllFrames P stale commonID opts = some r₁ ∧
        r₀.err = none ∧ r₁.err = none ∧
        r₀.tag.added =
          t.added ++ fs.map (fun f => (f.id, (parseFrameBody P f.id f.body).frame)) ∧
        r₁.tag.added =
          t.added ++ (fs.map (fun f => (f.id, (parseFrameBody P f.id f.body).frame))).filter
            (fun e => decide (e.1 ∈ opts.ParseFrames.map commonID)) ∧
        r₁.tag.reader = r₀.tag.reader) := by
  have hlen : 0 < (opts.ParseFrames.map commonID).length := by
    rw [List.length_map]
    exact List.length_pos.mpr hne
  refine ⟨?_, ?_, ?_⟩
  · intro t r hr e he
    rcases parseLoop_added_selected P stale _ _ _ _ _ r hr e he with h1 | h1
    · exact Or.inl h1
    · right
      by_contra hm
      exact (selected_eq_true.mp h1) ⟨hlen, hm⟩
  · intro fuel i framesSize t f tail hpos hf hm hrd
    exact parseLoop_skip P stale _ fuel i framesSize t f tail hpos hf
      (selected_eq_false.mpr ⟨hlen, hm⟩) hrd
  · intro t fs h rest hcomplete hbudget hok hstop hrd
    have hfuel := budgetAfter_toNat fs _ hbudget
    have run := fun (ids : List Bytes) =>
      parseLoop_frames P stale ids (h ++ rest) fs (t.originalSize - tagHeaderSize).toNat 0
        (t.originalSize - tagHeaderSize) t hcomplete hbudget (Nat.le_refl _)
        (fun f hf _ => hok f hf) hrd
    have stop := fun (ids : List Bytes) =>
      parseLoop_softStop P stale ids
        ((t.originalSize - tagHeaderSize).toNat - fs.length) (0 + fs.length)
        (budgetAfter (t.originalSize - tagHeaderSize) fs)
        { t with reader := h ++ rest, added := t.added ++ addedBy P ids fs }
        h rest (by omega) hstop rfl
    obtain ⟨r₀, hr₀, herr₀, hadded₀, _, hrd₀⟩ := stop []
    obtain ⟨r₁, hr₁, herr₁, hadded₁, _, hrd₁⟩ := stop (opts.ParseFrames.map commonID)
    refine ⟨r₀, r₁, ?_, ?_, herr₀, herr₁, ?_, ?_, ?_⟩
    · unfold Tag.parseAllFrames
      simp only [List.map_nil]
      rw [run [], hr₀]
    · unfold Tag.parseAllFrames
      simp only
      rw [run (opts.ParseFrames.map commonID), hr₁]
    · rw [hadded₀, addedBy_all_selected P [] fs (fun f _ => by simp [selected])]
    · rw [hadded₁, addedBy_filter P _ hlen fs]
    · rw [hrd₀, hrd₁]

/-- An instance of C8: the two sample frames followed by padding, parsed with
the allow-list `TIT2`; only the text frame is added and the source is left at
the same position as without the allow-list. -/
theorem parseAllFrames_filter_witness :
    ∃ r₀ r₁,
      (sampleTag 40 (wireFrames sampleFrames ++
          ([0, 0, 0, 0, 0, 0, 0, 0, 0, 0] ++ [1, 2]))).parseAllFrames
        (stockParsers plainCodec) (fun _ _ => 0) (fun d => d) ⟨true, []⟩ = some r₀ ∧
      (sampleTag 40 (wireFrames sampleFrames ++
          ([0, 0, 0, 0, 0, 0, 0, 0, 0, 0] ++ [1, 2]))).parseAllFrames
        (stockParsers plainCodec) (fun _ _ => 0) (fun d => d) ⟨true, [[84, 73, 84, 50]]⟩ =
          some r₁ ∧
      r₀.err = none ∧ r₁.err = none ∧
      r₀.tag.added =
        [([84, 73, 84, 50], some (Frame.text EncodingUTF8 [65])),
         ([88, 88, 88, 88], some (Frame.unknown [9]))] ∧
      r₁.tag.added = [([84, 73, 84, 50], some (Frame.text EncodingUTF8 [65]))] ∧
      r₁.tag.reader = r₀.tag.reader :=
  (parseAllFrames_filter (stockParsers plainCodec) (fun _ _ => 0) (fun d => d)
    ⟨true, [[84, 73, 84, 50]]⟩ (by decide)).2.2
    (sampleTag 40 (wireFrames sampleFrames ++ ([0, 0, 0, 0, 0, 0, 0, 0, 0, 0] ++ [1, 2])))
    sampleFrames [0, 0, 0, 0, 0, 0, 0, 0, 0, 0] [1, 2]
    (by decide) (by decide) (by decide) (by decide) rfl

/-- C8 as stated fails: the source holds a complete lyrics frame whose
one-byte body ends before the language code, then the text frame `TIT2`, then
padding. With no allow-list the lyrics parser reports `io.EOF`, the loop stops
there and `TIT2` is never added; with the allow-list `TIT2` the lyrics frame is
skipped and `TIT2` is parsed and added. -/
theorem parseAllFrames_filter_differs :
    ∃ r₀ r₁,
      (sampleTag 40 (wireFrames
          [⟨[85, 83, 76, 84], [0, 0, 0, 1], [0, 0], [3]⟩,
           ⟨[84, 73, 84, 50], [0, 0, 0, 2], [0, 0], [3, 65]⟩] ++
          [0, 0, 0, 0, 0, 0, 0, 0, 0, 0])).parseAllFrames
        (stockParsers plainCodec) (fun _ _ => 0) (fun d => d) ⟨true, []⟩ = some r₀ ∧
      (sampleTag 40 (wireFrames
          [⟨[85, 83, 76, 84], [0, 0, 0, 1], [0, 0], [3]⟩,
           ⟨[84, 73, 84, 50], [0, 0, 0, 2], [0, 0], [3, 65]⟩] ++
          [0, 0, 0, 0, 0, 0, 0, 0, 0, 0])).parseAllFrames
        (stockParsers plainCodec) (fun _ _ => 0) (fun d => d) ⟨true, [[84, 73, 84, 50]]⟩ =
          some r₁ ∧
      r₀.err = none ∧ r₁.err = none ∧
      r₀.tag.added = [([85, 83, 76, 84], none)] ∧
      r₁.tag.added = [([84, 73, 84, 50], some (Frame.text EncodingUTF8 [65]))] :=
  ⟨_, _, rfl, rfl, rfl, rfl, rfl, rfl⟩

theorem parseFrameHeader_rest (stale : Nat → Nat) (rd : Bytes) :
    (parseFrameHeader stale rd).2 = rd.drop frameHeaderSize := by
  simp only [parseFrameHeader]
  split <;> (try split) <;> rfl

theorem parseFrameHeader_ok_bounds (stale : Nat → Nat) (rd : Bytes) (hd : frameHeader)
    (h : (parseFrameHeader stale rd).1 = .ok hd) : 0 < hd.BodySize ∧ hd.BodySize < 2 ^ 28 := by
  simp only [parseFrameHeader] at h
  cases hps : ParseSize (bufSlice stale (rd.take frameHeaderSize) 4 8) with
  | error err => rw [hps] at h; cases h
  | ok n =>
    rw [hps] at h
    simp only at h
    have hlt := parseSize_bufSlice_lt stale _ n hps
    split at h
    · cases h
    · rename_i hne
      injection h with h
      subst h
      exact ⟨Nat.pos_of_ne_zero (fun h0 => hne (Or.inr h0)), hlt⟩

theorem parseLoop_consumption {F : Type} (P : FrameParsers F) (stale : Nat → Nat → Nat)
    (parseIDs : List Bytes) :
    ∀ (fuel i : Nat) (framesSize : Int) (t : Tag F), framesSize.toNat ≤ fuel →
      ∃ r, parseLoop P stale parseIDs fuel i framesSize t = some r ∧
        r.tag.reader.length ≤ t.reader.length ∧
        (((t.reader.length : Int) - r.tag.reader.length) + r.framesSize ≤ framesSize ∨
          (0 < r.framesSize ∧
            ((t.reader.length : Int) - r.tag.reader.length) + r.framesSize ≤ framesSize + 10)) ∧
        (framesSize ≤ 0 → r.framesSize = framesSize ∧ r.tag.reader = t.reader) ∧
        (0 < framesSize → -(2 ^ 28 : Int) - 8 ≤ r.framesSize) := by
  intro fuel
  induction fuel with
  | zero =>
    intro i framesSize t hfuel
    have hle : framesSize ≤ 0 := by omega
    exact ⟨_, parseLoop_zero _ _ _ _ _ _ _ hle, Nat.le_refl _, Or.inl (by simp),
      fun _ => ⟨rfl, rfl⟩, fun h => by omega⟩
  | succ fuel ih =>
    intro i framesSize t hfuel
    by_cases hpos : 0 < framesSize
    · rw [parseLoop_succ _ _ _ _ _ _ _ hpos]
      have hrest := parseFrameHeader_rest (stale i) t.reader
      have hrl : ((parseFrameHeader (stale i) t.reader).2).length = t.reader.length - 10 := by
        rw [hrest, List.length_drop]; rfl
      cases hhdr : (parseFrameHeader (stale i) t.reader).1 with
      | error err =>
        simp only
        split
        · exact ⟨_, rfl, by simp only [hrl]; omega, Or.inr ⟨hpos, by simp only [hrl]; omega⟩,
            fun h => by omega, fun _ => by simp only; omega⟩
        · exact ⟨_, rfl, by simp only [hrl]; omega, Or.inr ⟨hpos, by simp only [hrl]; omega⟩,
            fun h => by omega, fun _ => by simp only; omega⟩
      | ok header =>
        simp only
        obtain ⟨hb1, hb2⟩ := parseFrameHeader_ok_bounds (stale i) t.reader header hhdr
        have hfh : (frameHeaderSize : Int) = 10 := rfl
        generalize (parseFrameHeader (stale i) t.reader).2 = rd2 at hrl ⊢
        by_cases hskip : 0 < parseIDs.length ∧ header.ID ∉ parseIDs
        · rw [if_pos hskip]
          obtain ⟨r, hr, hlen, hinv, hz, hlow⟩ := ih (i + 1)
            (framesSize - ((frameHeaderSize : Int) + (header.BodySize : Int)))
            { t with reader := rd2.drop header.BodySize } (by omega)
          have hl2 : (rd2.drop header.BodySize).length =
              t.reader.length - 10 - header.BodySize := by
            rw [List.length_drop, hrl]
          simp only [hl2] at hlen hinv
          refine ⟨r, hr, by omega, ?_, fun h => by omega, fun _ => ?_⟩
          · rcases hinv with h1 | ⟨h0, h1⟩
            · left; omega
            · right; exact ⟨h0, by omega⟩
          · by_cases hS : 0 < framesSize - ((frameHeaderSize : Int) + (header.BodySize : Int))
            · exact hlow hS
            · have := (hz (not_lt.mp hS)).1
              omega
        · rw [if_neg hskip]
          generalize parseFrameBody P header.ID (rd2.take header.BodySize) = br
          have hl2 : (rd2.drop (min br.used (rd2.take header.BodySize).length)).length =
              t.reader.length - 10 - min br.used (min header.BodySize (t.reader.length - 10)) := by
            rw [List.length_drop, List.length_take, hrl]
          split
          · refine ⟨_, rfl, ?_, Or.inl ?_, fun h => by omega, fun _ => ?_⟩
            · simp only [hl2]; omega
            · simp only [hl2]; omega
            · simp only; omega
          · split
            · refine ⟨_, rfl, ?_, Or.inl ?_, fun h => by omega, fun _ => ?_⟩
              · simp only [Tag.AddFrame, hl2]; omega
              · simp only [Tag.AddFrame, hl2]; omega
              · simp only; omega
            · obtain ⟨r, hr, hlen, hinv, hz, hlow⟩ := ih (i + 1)
                (framesSize - ((frameHeaderSize : Int) + (header.BodySize : Int)))
                (Tag.AddFrame
                  { t with reader := rd2.drop (min br.used (rd2.take header.BodySize).length) }
                  header.ID br.frame)
                (by omega)
              simp only [Tag.AddFrame, hl2] at hlen hinv
              refine ⟨r, hr, by omega, ?_, fun h => by omega, fun _ => ?_⟩
              · rcases hinv with h1 | ⟨h0, h1⟩
                · left; omega
                · right; exact ⟨h0, by omega⟩
              · by_cases hS : 0 < framesSize - ((frameHeaderSize : Int) + (header.BodySize : Int))
                · exact hlow hS
                · have := (hz (not_lt.mp hS)).1
                  omega
    · exact ⟨_, parseLoop_zero _ _ _ _ _ _ _ (not_lt.mp hpos), Nat.le_refl _, Or.inl (by simp),
        fun _ => ⟨rfl, rfl⟩, fun h => absurd h hpos⟩

/-- C4, as amended. `parseAllFrames` always returns; the bytes it consumes plus
the budget `framesSize` left at the end are at most the frame area
`originalSize - tagHeaderSize` plus 10; it consumes nothing when the frame area
is not positive and otherwise at most the frame area plus 2^28 + 8 bytes. A
header is read only while the budget is positive, but the frame it declares is
read in full even where it overruns the budget. -/
theorem parseAllFrames_consumption {F : Type} (P : FrameParsers F) (stale : Nat → Nat → Nat)
    (commonID : Bytes → Bytes) (t : Tag F) (opts : Options) :
    ∃ r, t.parseAllFrames P stale commonID opts = some r ∧
      r.tag.reader.length ≤ t.reader.length ∧
      ((t.reader.length : Int) - r.tag.reader.length) + r.framesSize ≤
        (t.originalSize - tagHeaderSize) + 10 ∧
      (t.originalSize - tagHeaderSize ≤ 0 → r.tag.reader = t.reader) ∧
      (0 < t.originalSize - tagHeaderSize →
        ((t.reader.length : Int) - r.tag.reader.length) ≤
          (t.originalSize - tagHeaderSize) + 2 ^ 28 + 8) := by
  obtain ⟨r, hr, hlen, hinv, hz, hlow⟩ := parseLoop_consumption P stale
    (opts.ParseFrames.map commonID) (t.originalSize - tagHeaderSize).toNat 0
    (t.originalSize - tagHeaderSize) t (Nat.le_refl _)
  refine ⟨r, hr, hlen, ?_, fun h => (hz h).2, fun h => ?_⟩
  · rcases hinv with h1 | ⟨_, h1⟩ <;> omega
  · have := hlow h
    rcases hinv with h1 | ⟨_, h1⟩ <;> omega

/-- C4 as stated fails: with a frame area of 1 byte and a source that starts
with the 12-byte frame `TIT2`, the loop reads the header and the body, 12 bytes
in all. -/
theorem parseAllFrames_overrun :
    ∃ r, (sampleTag 1 (wireFrames sampleFrames)).parseAllFrames
        (stockParsers plainCodec) (fun _ _ => 0) (fun d => d) ⟨true, []⟩ = some r ∧
      r.err = none ∧
      ((wireFrames sampleFrames).length : Int) - r.tag.reader.length = 12 ∧
      ¬ ((wireFrames sampleFrames).length : Int) - r.tag.reader.length ≤
        (sampleTag 1 (wireFrames sampleFrames)).originalSize - tagHeaderSize :=
  ⟨_, rfl, rfl, by decide, by decide⟩

/-! ## Language validation on write -/

/-- C11. On a sink that accepts every write, `WriteTo` returns a non-nil error
if and only if the language does not have exactly 3 bytes. -/
theorem writeTo_error_iff (c : TextCodec) (uslf : UnsynchronisedLyricsFrame) :
    (uslf.WriteTo c).err ≠ none ↔ uslf.Language.length ≠ 3 := by
  by_cases h : uslf.Language.length = 3
  · simp [UnsynchronisedLyricsFrame.WriteTo, h]
  · simp [UnsynchronisedLyricsFrame.WriteTo, h]

/-! ## Keys and the cache of the comment sequence -/

theorem commentKey_ne (a b : CommentFrame) (hlen : a.Language.length = b.Language.length)
    (hne : (a.Language, a.Description) ≠ (b.Language, b.Description)) :
    commentKey a ≠ commentKey b := by
  intro h
  obtain ⟨h1, h2⟩ := List.append_inj h hlen
  exact hne (by rw [h1, h2])

/-- C12, as amended. Two comment frames whose (language, description) pairs
differ and whose languages have the same length (as the 3-letter codes have),
added to an empty sequence, are both stored: `Count()` is 2 and `Frames()`
holds both; among frames with languages of one length, a frame replaces another
only when language and description are both the same. -/
theorem distinct_pairs_both_stored (o : MapOrder) (a b : CommentFrame)
    (hlen : a.Language.length = b.Language.length)
    (hne : (a.Language, a.Description) ≠ (b.Language, b.Description)) :
    ((newCommentSequence.AddFrame a).AddFrame b).Count = 2 ∧
    a ∈ (((newCommentSequence.AddFrame a).AddFrame b).Frames o).1 ∧
    b ∈ (((newCommentSequence.AddFrame a).AddFrame b).Frames o).1 := by
  have hk : a.Language ++ a.Description ≠ b.Language ++ b.Description := commentKey_ne a b hlen hne
  have hseq : ((newCommentSequence.AddFrame a).AddFrame b).sequence =
      [(a.Language ++ a.Description, a), (b.Language ++ b.Description, b)] := by
    simp [commentSequence.AddFrame, newCommentSequence, mapSet, hk]
  have hfr := frames_after_add o (newCommentSequence.AddFrame a) b
  have hperm := o.perm ((newCommentSequence.AddFrame a).AddFrame b).sequence
  refine ⟨by simp [commentSequence.Count, hseq], ?_, ?_⟩
  · rw [hfr]
    exact List.mem_map.mpr ⟨(a.Language ++ a.Description, a),
      hperm.mem_iff.mpr (by rw [hseq]; simp), rfl⟩
  · rw [hfr]
    exact List.mem_map.mpr ⟨(b.Language ++ b.Description, b),
      hperm.mem_iff.mpr (by rw [hseq]; simp), rfl⟩

/-- An instance of C12 as amended: the comments `{eng, d}` and `{deu, d}`. -/
theorem distinct_pairs_both_stored_witness :
    ((newCommentSequence.AddFrame ⟨EncodingUTF8, [101, 110, 103], [100], [97]⟩).AddFrame
        ⟨EncodingUTF8, [100, 101, 117], [100], [98]⟩).Count = 2 :=
  (distinct_pairs_both_stored MapOrder.stored ⟨EncodingUTF8, [101, 110, 103], [100], [97]⟩
    ⟨EncodingUTF8, [100, 101, 117], [100], [98]⟩ (by decide) (by decide)).1

/-- C12 as stated fails: the comment with language `en` and description `gx`
and the comment with language `eng` and description `x` differ in both fields,
yet both have the key `engx`; after adding both to an empty sequence `Count()`
is 1 and only the second is stored. -/
theorem distinct_pairs_collide :
    ((([101, 110] : Bytes), ([103, 120] : Bytes)) ≠ ([101, 110, 103], [120])) ∧
    ((newCommentSequence.AddFrame ⟨EncodingUTF8, [101, 110], [103, 120], [97]⟩).AddFrame
        ⟨EncodingUTF8, [101, 110, 103], [120], [98]⟩).Count = 1 ∧
    (((newCommentSequence.AddFrame ⟨EncodingUTF8, [101, 110], [103, 120], [97]⟩).AddFrame
        ⟨EncodingUTF8, [101, 110, 103], [120], [98]⟩).Frames MapOrder.stored).1 =
      [⟨EncodingUTF8, [101, 110, 103], [120], [98]⟩] := by
  decide

theorem cache_call (cs : commentSequence) (c : SeqCall)
    (h : cs.framesCache = [] ∨ cs.framesCache.Perm (cs.sequence.map Prod.snd)) :
    (cs.call c).framesCache = [] ∨
      (cs.call c).framesCache.Perm ((cs.call c).sequence.map Prod.snd) := by
  cases c with
  | add cf => exact Or.inl rfl
  | frames o =>
    by_cases hc : cs.framesCache.length = 0
    · right
      simp only [commentSequence.call, commentSequence.Frames, hc, if_true]
      exact (o.perm cs.sequence).map Prod.snd
    · simp only [commentSequence.call, commentSequence.Frames, hc, if_false]
      exact h

theorem cache_foldl (calls : List SeqCall) :
    ∀ cs : commentSequence,
      (cs.framesCache = [] ∨ cs.framesCache.Perm (cs.sequence.map Prod.snd)) →
      ((calls.foldl commentSequence.call cs).framesCache = [] ∨
        (calls.foldl commentSequence.call cs).framesCache.Perm
          ((calls.foldl commentSequence.call cs).sequence.map Prod.snd)) := by
  induction calls with
  | nil => intro cs h; exact h
  | cons c t ih => intro cs h; exact ih (cs.call c) (cache_call cs c h)

/-- C13. After any finite interleaving of `AddFrame` and `Frames` calls,
`Frames()` returns a rearrangement of the frames stored in the map, each
exactly once, so its length is `Count()`; and a second `Frames()` call right
after it returns the same list, whatever order the map is ranged over. -/
theorem frames_never_stale (calls : List SeqCall) (o₁ o₂ : MapOrder) :
    ((runCalls calls).Frames o₁).1.Perm ((runCalls calls).sequence.map Prod.snd) ∧
    ((runCalls calls).Frames o₁).1.length = (runCalls calls).Count ∧
    (((runCalls calls).Frames o₁).2.Frames o₂).1 = ((runCalls calls).Frames o₁).1 := by
  have hinv : (runCalls calls).framesCache = [] ∨
      (runCalls calls).framesCache.Perm ((runCalls calls).sequence.map Prod.snd) :=
    cache_foldl calls newCommentSequence (Or.inl rfl)
  generalize runCalls calls = cs at hinv ⊢
  have hperm : (cs.Frames o₁).1.Perm (cs.sequence.map Prod.snd) := by
    by_cases hc : cs.framesCache.length = 0
    · simp only [commentSequence.Frames, hc, if_true]
      exact (o₁.perm cs.sequence).map Prod.snd
    · simp only [commentSequence.Frames, hc, if_false]
      rcases hinv with h | h
      · exact absurd (by rw [h]; rfl) hc
      · exact h
  refine ⟨hperm, ?_, ?_⟩
  · rw [hperm.length_eq]
    simp [commentSequence.Count]
  · by_cases hc : cs.framesCache.length = 0
    · simp only [commentSequence.Frames, hc, if_true]
      by_cases hl : ((o₁.order cs.sequence).map Prod.snd).length = 0
      · simp only [hl, if_true]
        have h1 : cs.sequence = [] := by
          have := (o₁.perm cs.sequence).length_eq
          simp only [List.length_map] at hl
          exact List.length_eq_zero.mp (by omega)
        have h2 : o₁.order cs.sequence = [] := by
          have := (o₁.perm cs.sequence).length_eq
          exact List.length_eq_zero.mp (by rw [this, h1]; rfl)
        have h3 : o₂.order cs.sequence = [] := by
          have := (o₂.perm cs.sequence).length_eq
          exact List.length_eq_zero.mp (by rw [this, h1]; rfl)
        rw [h2, h3]
      · simp only [hl, if_false]
    · simp only [commentSequence.Frames, hc, if_false]

/-! ## What `ReadTillAndWithDelims` returns -/

/-- C16 fails on the code: with the delimiter `00 00` and the input `01 02 03`,
which holds no zero byte, the first read ends in `io.EOF`, the loop is left by
`break`, and the function returns no data and a nil error although the data
returned does not end in the delimiter. -/
theorem readTillAndWithDelims_eof_nil :
    Reader.ReadTillAndWithDelims [0, 0] [1, 2, 3] = some ⟨[], none, []⟩ := by
  decide

/-- C17 fails on the code: with the delimiter `00 01` and the input
`00 00 01 00 01`, whose first occurrence of the delimiter ends at offset 3, the
byte after the first `00` is consumed by the comparison, the occurrence that
starts at it is missed, and all five bytes are returned. -/
theorem readTillAndWithDelims_skips :
    Reader.ReadTillAndWithDelims [0, 1] [0, 0, 1, 0, 1] = some ⟨[0, 0, 1, 0, 1], none, []⟩ ∧
    ([0, 0, 1, 0, 1] : Bytes) = [0] ++ [0, 1] ++ [0, 1] := by
  decide

theorem adjacentFree_of_forall (d : Nat) :
    ∀ l : Bytes, (∀ j, (l.drop j).take 2 ≠ [d, d]) → adjacentFree d l = true := by
  intro l
  induction l with
  | nil => intro _; rfl
  | cons x t ih =>
    intro h
    cases t with
    | nil => rfl
    | cons y t2 =>
      have h0 := h 0
      have ht := ih (fun j => h (j + 1))
      simp only [List.drop_zero, List.take_succ_cons, List.take_zero, ne_eq, List.cons.injEq,
        and_true] at h0
      simp only [adjacentFree, ht, Bool.and_true, Bool.not_eq_true', Bool.and_eq_false_iff,
        beq_eq_false_iff_ne, ne_eq]
      by_cases hx : x = d
      · right; exact fun hy => h0 ⟨hx, hy⟩
      · left; exact hx

theorem take_two_eq (d : Nat) (l : Bytes) (h : l.take 2 = [d, d]) : l = d :: d :: l.drop 2 := by
  match l, h with
  | x :: y :: t, h =>
    simp only [List.take_succ_cons, List.take_zero, List.cons.injEq, and_true] at h
    simp [h.1, h.2]

/-- C18. For the delimiter `d d` and an input that holds two consecutive bytes
`d`, `ReadTillAndWithDelims` returns with a nil error the input up to and
including the first such pair (the pair at the least offset `k`), that is the
shortest part of the input from its start that ends in `d d`, and leaves the
reader right after it. -/
theorem readTillAndWithDelims_same_byte (d : Nat) (input : Bytes)
    (h : ∃ k, (input.drop k).take 2 = [d, d]) :
    ∃ k, (input.drop k).take 2 = [d, d] ∧
      (∀ j, j < k → (input.drop j).take 2 ≠ [d, d]) ∧
      Reader.ReadTillAndWithDelims [d, d] input =
        some ⟨input.take (k + 2), none, input.drop (k + 2)⟩ := by
  classical
  refine ⟨Nat.find h, Nat.find_spec h, fun j hj => Nat.find_min h hj, ?_⟩
  generalize hk : Nat.find h = k
  have hspec : (input.drop k).take 2 = [d, d] := hk ▸ Nat.find_spec h
  have hmin : ∀ j, j < k → (input.drop j).take 2 ≠ [d, d] := fun j hj =>
    Nat.find_min h (hk ▸ hj)
  have hklen : k + 2 ≤ input.length := by
    have := congrArg List.length hspec
    simp only [List.length_take, List.length_drop, List.length_cons, List.length_nil] at this
    omega
  have hdrop : input.drop k = d :: d :: input.drop (k + 2) := by
    have := take_two_eq d _ hspec
    rw [List.drop_drop] at this
    exact this
  have hinput : input = input.take k ++ d :: d :: input.drop (k + 2) := by
    rw [← hdrop, List.take_append_drop]
  have hfree : adjacentFree d (input.take k ++ [d]) = true := by
    apply adjacentFree_of_forall
    intro j hj
    have hlen2 : j + 2 ≤ (input.take k ++ [d]).length := by
      have := congrArg List.length hj
      simp only [List.length_take, List.length_drop, List.length_cons, List.length_nil] at this
      omega
    have hjk : j < k := by
      simp only [List.length_append, List.length_take, List.length_cons, List.length_nil] at hlen2
      omega
    apply hmin j hjk
    have hsplit : input = (input.take k ++ [d]) ++ d :: input.drop (k + 2) := by
      rw [List.append_assoc]; exact hinput
    rw [hsplit, List.drop_append_of_le_length (by omega),
      List.take_append_of_le_length (by rw [List.length_drop]; omega)]
    exact hj
  have hrun := readDelimsLoop_same d (input.drop (k + 2)) (input.length + 1) (input.take k) []
    (by rw [List.length_take]; omega) hfree
  have htake : input.take (k + 2) = input.take k ++ [d, d] := by
    conv_lhs => rw [hinput]
    rw [List.take_append_eq_append_take]
    simp [List.length_take, Nat.min_eq_left (show k ≤ input.length by omega)]
  rw [htake]
  rw [← hinput] at hrun
  simpa [Reader.ReadTillAndWithDelims] using hrun

/-- An instance of C18: the delimiter `00 00` in the input `41 00 42 00 00 07`. -/
theorem readTillAndWithDelims_same_byte_witness :
    ∃ k, (([65, 0, 66, 0, 0, 7] : Bytes).drop k).take 2 = [0, 0] ∧
      (∀ j, j < k → (([65, 0, 66, 0, 0, 7] : Bytes).drop j).take 2 ≠ [0, 0]) ∧
      Reader.ReadTillAndWithDelims [0, 0] [65, 0, 66, 0, 0, 7] =
        some ⟨([65, 0, 66, 0, 0, 7] : Bytes).take (k + 2), none,
          ([65, 0, 66, 0, 0, 7] : Bytes).drop (k + 2)⟩ :=
  readTillAndWithDelims_same_byte 0 [65, 0, 66, 0, 0, 7] ⟨3, by decide⟩

/-! ## Termination of the parse loop -/

theorem parseLoop_fuel_succ {F : Type} (P : FrameParsers F) (stale : Nat → Nat → Nat)
    (parseIDs : List Bytes) :
    ∀ (fuel i : Nat) (framesSize : Int) (t : Tag F) (r : LoopEnd F),
      parseLoop P stale parseIDs fuel i framesSize t = some r →
      parseLoop P stale parseIDs (fuel + 1) i framesSize t = some r := by
  intro fuel
  induction fuel with
  | zero =>
    intro i framesSize t r h
    by_cases hpos : 0 < framesSize
    · simp [parseLoop] at h
      omega
    · rw [parseLoop_zero _ _ _ _ _ _ _ (not_lt.mp hpos)] at h ⊢
      exact h
  | succ fuel ih =>
    intro i framesSize t r h
    by_cases hpos : 0 < framesSize
    · rw [parseLoop_succ _ _ _ _ _ _ _ hpos] at h ⊢
      cases hhdr : (parseFrameHeader (stale i) t.reader).1 with
      | error err => rw [hhdr] at h; exact h
      | ok header =>
        rw [hhdr] at h
        simp only at h ⊢
        by_cases hskip : 0 < parseIDs.length ∧ header.ID ∉ parseIDs
        · rw [if_pos hskip] at h ⊢
          exact ih _ _ _ r h
        · rw [if_neg hskip] at h ⊢
          split
          · rename_i h1; rw [if_pos h1] at h; exact h
          · rename_i h1
            rw [if_neg h1] at h
            split
            · rename_i h2; rw [if_pos h2] at h; exact h
            · rename_i h2
              rw [if_neg h2] at h
              exact ih _ _ _ r h
    · rw [parseLoop_zero _ _ _ _ _ _ _ (not_lt.mp hpos)] at h ⊢
      exact h

theorem parseLoop_fuel_le {F : Type} (P : FrameParsers F) (stale : Nat → Nat → Nat)
    (parseIDs : List Bytes) (i : Nat) (framesSize : Int) (t : Tag F) (r : LoopEnd F)
    (fuel : Nat) (h : parseLoop P stale parseIDs fuel i framesSize t = some r) :
    ∀ k : Nat, parseLoop P stale parseIDs (fuel + k) i framesSize t = some r := by
  intro k
  induction k with
  | zero => exact h
  | succ k ih => exact parseLoop_fuel_succ P stale parseIDs (fuel + k) i framesSize t r ih

theorem parseLoop_returns {F : Type} (P : FrameParsers F) (stale : Nat → Nat → Nat)
    (parseIDs : List Bytes) :
    ∀ (fuel i : Nat) (framesSize : Int) (t : Tag F), (framesSize.toNat + 10) / 11 ≤ fuel →
      ∃ r, parseLoop P stale parseIDs fuel i framesSize t = some r := by
  intro fuel
  induction fuel with
  | zero =>
    intro i framesSize t hfuel
    exact ⟨_, parseLoop_zero _ _ _ _ _ _ _ (by omega)⟩
  | succ fuel ih =>
    intro i framesSize t hfuel
    by_cases hpos : 0 < framesSize
    · rw [parseLoop_succ _ _ _ _ _ _ _ hpos]
      cases hhdr : (parseFrameHeader (stale i) t.reader).1 with
      | error err =>
        simp only
        split <;> exact ⟨_, rfl⟩
      | ok header =>
        simp only
        obtain ⟨hb1, _⟩ := parseFrameHeader_ok_bounds (stale i) t.reader header hhdr
        have hfh : (frameHeaderSize : Int) = 10 := rfl
        have hfuel2 : ((framesSize - ((frameHeaderSize : Int) + (header.BodySize : Int))).toNat
            + 10) / 11 ≤ fuel := by omega
        split
        · exact ih _ _ _ hfuel2
        · split
          · exact ⟨_, rfl⟩
          · split
            · exact ⟨_, rfl⟩
            · exact ih _ _ _ hfuel2
    · exact ⟨_, parseLoop_zero _ _ _ _ _ _ _ (not_lt.mp hpos)⟩

/-- C19. The parse loop ends on every input. A frame header that keeps the loop
going has a body size of at least 1, so each turn that does not leave the loop
lowers the budget by at least 11, and for a frame area of `S` bytes the loop
body runs at most `⌈S / 11⌉` times: run with that many turns of fuel (one per
execution of the body) the loop returns, with the result of `parseAllFrames`,
with or without an allow-list. -/
theorem parseAllFrames_terminates {F : Type} (P : FrameParsers F) (stale : Nat → Nat → Nat)
    (commonID : Bytes → Bytes) (t : Tag F) (opts : Options) :
    (∀ (old : Nat → Nat) (rd : Bytes) (header : frameHeader),
      (parseFrameHeader old rd).1 = .ok header → 1 ≤ header.BodySize) ∧
    ∃ r, parseLoop P stale (opts.ParseFrames.map commonID)
        (((t.originalSize - tagHeaderSize).toNat + 10) / 11) 0
        (t.originalSize - tagHeaderSize) t = some r ∧
      t.parseAllFrames P stale commonID opts = some r := by
  refine ⟨fun old rd header h => (parseFrameHeader_ok_bounds old rd header h).1, ?_⟩
  obtain ⟨r, hr⟩ := parseLoop_returns P stale (opts.ParseFrames.map commonID)
    (((t.originalSize - tagHeaderSize).toNat + 10) / 11) 0 (t.originalSize - tagHeaderSize) t
    (Nat.le_refl _)
  refine ⟨r, hr, ?_⟩
  have hle : ((t.originalSize - tagHeaderSize).toNat + 10) / 11 ≤
      (t.originalSize - tagHeaderSize).toNat := by omega
  obtain ⟨k, hk⟩ := Nat.exists_eq_add_of_le hle
  have := parseLoop_fuel_le P stale _ 0 _ t r _ hr k
  unfold Tag.parseAllFrames
  simp only
  rw [hk]
  exact this

/-! ## Parsing a tag -/

/-- C14. For a non-nil reader on which `parseHeader` reports `NoTag`, and for
every options value, `parseTag` returns a nil error and a tag of original size
0 and version 4 with nothing added to its frame map or sequences; the reader is
as `parseHeader` left it, no frame is read. -/
theorem parseTag_no_tag {F : Type} (P : FrameParsers F) (stale : Nat → Nat → Nat)
    (commonID : Bytes → Bytes) (parseHdr : Bytes → Except Error tagHeader × Bytes)
    (rd : Bytes) (opts : Options) (h : (parseHdr rd).1 = .error Error.NoTag) :
    ∃ t : Tag F, parseTag P stale commonID parseHdr (some rd) opts = some (some t, none) ∧
      t.originalSize = 0 ∧ t.added = [] ∧ t.version = 4 ∧ t.reader = (parseHdr rd).2 := by
  refine ⟨newTag (parseHdr rd).2 0 4, ?_, rfl, rfl, rfl, rfl⟩
  simp [parseTag, h]

/-- An instance of C14: a source that starts with `XYZ` instead of the marker. -/
theorem parseTag_no_tag_witness :
    ∃ t : Tag Frame, parseTag (stockParsers plainCodec) (fun _ _ => 0) (fun d => d) parseHeader
        (some [88, 89, 90, 4, 0, 0, 0, 0, 0, 12, 1, 2]) ⟨true, []⟩ = some (some t, none) ∧
      t.originalSize = 0 ∧ t.added = [] ∧ t.version = 4 ∧
      t.reader = (parseHeader [88, 89, 90, 4, 0, 0, 0, 0, 0, 12, 1, 2]).2 :=
  parseTag_no_tag (stockParsers plainCodec) (fun _ _ => 0) (fun d => d) parseHeader
    [88, 89, 90, 4, 0, 0, 0, 0, 0, 12, 1, 2] ⟨true, []⟩ (by decide)

/-- C15. When `parseHeader` succeeds with a major version below 3, `parseTag`
returns an error and no tag, whatever the options, and reads no frame; with a
version of 3 or more and `Parse` false it returns a nil error and a tag whose
original size is 10 plus the declared frames size and to which nothing has
been added. -/
theorem parseTag_version {F : Type} (P : FrameParsers F) (stale : Nat → Nat → Nat)
    (commonID : Bytes → Bytes) (parseHdr : Bytes → Except Error tagHeader × Bytes)
    (rd : Bytes) (opts : Options) (header : tagHeader) (h : (parseHdr rd).1 = .ok header) :
    (header.Version < 3 →
      parseTag (F := F) P stale commonID parseHdr (some rd) opts =
        some (none, some (Error.UnsupportedVersion header.Version))) ∧
    (3 ≤ header.Version → opts.Parse = false →
      ∃ t : Tag F, parseTag P stale commonID parseHdr (some rd) opts = some (some t, none) ∧
        t.originalSize = 10 + header.FramesSize ∧ t.added = [] ∧
        t.version = header.Version ∧ t.reader = (parseHdr rd).2) := by
  constructor
  · intro hv
    simp [parseTag, h, hv]
  · intro hv hp
    refine ⟨newTag (parseHdr rd).2 (tagHeaderSize + header.FramesSize) header.Version, ?_,
      rfl, rfl, rfl, rfl⟩
    simp [parseTag, h, Nat.not_lt.mpr hv, hp]

/-- An instance of C15: a header of version 2 declaring 12 bytes of frames. -/
theorem parseTag_version_witness :
    parseTag (F := Frame) (stockParsers plainCodec) (fun _ _ => 0) (fun d => d) parseHeader
        (some [73, 68, 51, 2, 0, 0, 0, 0, 0, 12, 1, 2]) ⟨true, []⟩ =
      some (none, some (Error.UnsupportedVersion 2)) :=
  (parseTag_version (stockParsers plainCodec) (fun _ _ => 0) (fun d => d) parseHeader
    [73, 68, 51, 2, 0, 0, 0, 0, 0, 12, 1, 2] ⟨true, []⟩ ⟨12, 2⟩ (by decide)).1 (by decide)

/-! ## The buffered writer -/

theorem call_of_err {W K : Type} (B : BufioWriter W K) (H : WriterHelpers W)
    (bw : bufWriter W) (h : bw.err ≠ none) (c : WriteCall) : bw.call B H c = bw := by
  cases c <;>
    simp [bufWriter.call, bufWriter.WriteByte, bufWriter.WriteString, bufWriter.Write,
      bufWriter.WriteBytesSize, bufWriter.EncodeAndWriteText, h]

theorem calls_of_err {W K : Type} (B : BufioWriter W K) (H : WriterHelpers W)
    (bw : bufWriter W) (h : bw.err ≠ none) :
    ∀ calls : List WriteCall, calls.foldl (bufWriter.call B H) bw = bw := by
  intro calls
  induction calls with
  | nil => rfl
  | cons c t ih => rw [List.foldl_cons, call_of_err B H bw h c, ih]

theorem flush_cases {S : Type} (sink : IoWriter S) (b : BufioState S) (h : b.err = none) :
    (b.Flush sink).1.err ≠ none ∨ ((b.Flush sink).1.buf = [] ∧ (b.Flush sink).1.err = none) := by
  unfold BufioState.Flush
  simp only [h, ne_eq, not_true_eq_false, if_false]
  by_cases hb : b.buf.length = 0
  · right
    simp only [hb, if_true]
    exact ⟨List.length_eq_zero.mp hb, h⟩
  · simp only [hb, if_false]
    generalize (if (sink.Write b.wr b.buf).2.1 < b.buf.length ∧ (sink.Write b.wr b.buf).2.2 = none
      then some Error.ShortWrite else (sink.Write b.wr b.buf).2.2) = e
    by_cases he : e = none
    · right; simp [he]
    · left; simp [he]

theorem writeLoop_of_err {S : Type} (sink : IoWriter S) (fuel : Nat) (b : BufioState S)
    (p : Bytes) (nn : Nat) (h : b.err ≠ none) : bufioWriteLoop sink fuel b p nn = (b, p, nn) := by
  cases fuel with
  | zero => rfl
  | succ fuel => simp [bufioWriteLoop, h]

theorem writeLoop_stop {S : Type} (sink : IoWriter S) (fuel : Nat) (b : BufioState S)
    (p : Bytes) (nn : Nat) (h : ¬ (b.Available < p.length ∧ b.err = none)) :
    bufioWriteLoop sink (fuel + 1) b p nn = (b, p, nn) := by
  simp only [bufioWriteLoop, h, if_false]

theorem writeLoop_count {S : Type} (sink : IoWriter S) :
    ∀ (fuel : Nat) (b : BufioState S) (p : Bytes) (nn : Nat),
      (bufioWriteLoop sink fuel b p nn).2.2 + (bufioWriteLoop sink fuel b p nn).2.1.length =
        nn + p.length := by
  intro fuel
  induction fuel with
  | zero => intro b p nn; rfl
  | succ fuel ih =>
    intro b p nn
    by_cases hc : b.Available < p.length ∧ b.err = none
    · by_cases hb : b.buf.length = 0
      · simp only [bufioWriteLoop, hc, and_self, if_true, hb]
        rw [ih, List.length_drop]
        have := sink.le b.wr p
        omega
      · simp only [bufioWriteLoop, hc, and_self, if_true, hb, if_false]
        rw [ih, List.length_drop]
        omega
    · rw [writeLoop_stop sink fuel b p nn hc]

theorem writeLoop_exit_empty {S : Type} (sink : IoWriter S) (fuel : Nat) (b : BufioState S)
    (p : Bytes) (nn : Nat) (hb : b.buf = [])
    (h : (bufioWriteLoop sink (fuel + 2) b p nn).1.err = none) :
    (bufioWriteLoop sink (fuel + 2) b p nn).2.1.length ≤
      (bufioWriteLoop sink (fuel + 2) b p nn).1.Available := by
  by_cases hc : b.Available < p.length ∧ b.err = none
  · have hb0 : b.buf.length = 0 := by rw [hb]; rfl
    have hstep : bufioWriteLoop sink (fuel + 2) b p nn =
        bufioWriteLoop sink (fuel + 1)
          { b with wr := (sink.Write b.wr p).1, err := (sink.Write b.wr p).2.2 }
          (p.drop (sink.Write b.wr p).2.1) (nn + (sink.Write b.wr p).2.1) := by
      simp only [bufioWriteLoop, hc, and_self, if_true, hb0]
    rw [hstep] at h ⊢
    by_cases he : (sink.Write b.wr p).2.2 = none
    · have hfull := sink.full b.wr p he
      have hstop : ¬ (({ b with wr := (sink.Write b.wr p).1, err := (sink.Write b.wr p).2.2 } :
          BufioState S).Available < (p.drop (sink.Write b.wr p).2.1).length ∧
          ({ b with wr := (sink.Write b.wr p).1, err := (sink.Write b.wr p).2.2 } :
            BufioState S).err = none) := by
        rw [List.length_drop, hfull]
        omega
      rw [writeLoop_stop sink fuel _ _ _ hstop]
      simp only [List.length_drop, hfull]
      omega
    · rw [writeLoop_of_err sink _ _ _ _ he] at h
      exact absurd h he
  · rw [writeLoop_stop sink (fuel + 1) b p nn hc] at h ⊢
    simp only at h ⊢
    by_contra hlt
    exact hc ⟨by omega, h⟩

theorem writeLoop_exit {S : Type} (sink : IoWriter S) (b : BufioState S) (p : Bytes) (nn : Nat)
    (h : (bufioWriteLoop sink 3 b p nn).1.err = none) :
    (bufioWriteLoop sink 3 b p nn).2.1.length ≤ (bufioWriteLoop sink 3 b p nn).1.Available := by
  by_cases hc : b.Available < p.length ∧ b.err = none
  · by_cases hb : b.buf.length = 0
    · exact writeLoop_exit_empty sink 1 b p nn (List.length_eq_zero.mp hb) h
    · have hstep : bufioWriteLoop sink 3 b p nn =
          bufioWriteLoop sink 2
            (BufioState.Flush sink { b with buf := b.buf ++ p.take (min b.Available p.length) }).1
            (p.drop (min b.Available p.length)) (nn + min b.Available p.length) := by
        simp only [bufioWriteLoop, hc, and_self, if_true, hb, if_false]
      rw [hstep] at h ⊢
      rcases flush_cases sink { b with buf := b.buf ++ p.take (min b.Available p.length) } hc.2
        with he | ⟨hbuf, _⟩
      · rw [writeLoop_of_err sink _ _ _ _ he] at h
        exact absurd h he
      · exact writeLoop_exit_empty sink 0 _ _ _ hbuf h
  · rw [writeLoop_stop sink 2 b p nn hc] at h ⊢
    simp only at h ⊢
    by_contra hlt
    exact hc ⟨by omega, h⟩

theorem bufio_write_full {S : Type} (sink : IoWriter S) (b : BufioState S) (p : Bytes)
    (h : (b.Write sink p).err = none) : (b.Write sink p).n = p.length := by
  unfold BufioState.Write at h ⊢
  by_cases he : (bufioWriteLoop sink 3 b p 0).1.err = none
  · simp only [he, ne_eq, not_true_eq_false, if_false]
    have h1 := writeLoop_exit sink b p 0 he
    have h2 := writeLoop_count sink 3 b p 0
    simp only [Nat.min_eq_right h1]
    omega
  · simp only [he, ne_eq, not_false_eq_true, if_true] at h

theorem writeStringLoop_of_err {S : Type} (sink : IoWriter S) (fuel : Nat) (b : BufioState S)
    (s : Bytes) (nn : Nat) (h : b.err ≠ none) :
    bufioWriteStringLoop sink fuel b s nn = (b, s, nn) := by
  cases fuel with
  | zero => rfl
  | succ fuel => simp [bufioWriteStringLoop, h]

theorem writeStringLoop_stop {S : Type} (sink : IoWriter S) (fuel : Nat) (b : BufioState S)
    (s : Bytes) (nn : Nat) (h : ¬ (b.Available < s.length ∧ b.err = none)) :
    bufioWriteStringLoop sink (fuel + 1) b s nn = (b, s, nn) := by
  simp only [bufioWriteStringLoop, h, if_false]

theorem writeStringLoop_count {S : Type} (sink : IoWriter S) :
    ∀ (fuel : Nat) (b : BufioState S) (s : Bytes) (nn : Nat),
      (bufioWriteStringLoop sink fuel b s nn).2.2 +
          (bufioWriteStringLoop sink fuel b s nn).2.1.length =
        nn + s.length := by
  intro fuel
  induction fuel with
  | zero => intro b s nn; rfl
  | succ fuel ih =>
    intro b s nn
    by_cases hc : b.Available < s.length ∧ b.err = none
    · simp only [bufioWriteStringLoop, hc, and_self, if_true]
      rw [ih, List.length_drop]
      omega
    · rw [writeStringLoop_stop sink fuel b s nn hc]

theorem writeStringLoop_exit {S : Type} (sink : IoWriter S) :
    ∀ (fuel : Nat) (b : BufioState S) (s : Bytes) (nn : Nat),
      s.length + (if b.buf = [] then 0 else 1) < fuel →
      (bufioWriteStringLoop sink fuel b s nn).1.err = none →
      (bufioWriteStringLoop sink fuel b s nn).2.1.length ≤
        (bufioWriteStringLoop sink fuel b s nn).1.Available := by
  intro fuel
  induction fuel with
  | zero => intro b s nn hm _; omega
  | succ fuel ih =>
    intro b s nn hm h
    by_cases hc : b.Available < s.length ∧ b.err = none
    · have hstep : bufioWriteStringLoop sink (fuel + 1) b s nn =
          bufioWriteStringLoop sink fuel
            (BufioState.Flush sink { b with buf := b.buf ++ s.take (min b.Available s.length) }).1
            (s.drop (min b.Available s.length)) (nn + min b.Available s.length) := by
        simp only [bufioWriteStringLoop, hc, and_self, if_true]
      rw [hstep] at h ⊢
      rcases flush_cases sink { b with buf := b.buf ++ s.take (min b.Available s.length) } hc.2
        with he | ⟨hbuf, _⟩
      · rw [writeStringLoop_of_err sink _ _ _ _ he] at h
        exact absurd h he
      · apply ih _ _ _ _ h
        rw [if_pos hbuf, List.length_drop]
        by_cases hb : b.buf = []
        · have hav : b.Available = defaultBufSize := by
            simp [BufioState.Available, hb]
          have hd : defaultBufSize = 4096 := rfl
          rw [if_pos hb] at hm
          have := hc.1
          omega
        · rw [if_neg hb] at hm
          omega
    · rw [writeStringLoop_stop sink fuel b s nn hc] at h ⊢
      simp only at h ⊢
      by_contra hlt
      exact hc ⟨by omega, h⟩

theorem bufio_writeString_full {S : Type} (sink : IoWriter S) (b : BufioState S) (s : Bytes)
    (h : (b.WriteString sink s).err = none) : (b.WriteString sink s).n = s.length := by
  unfold BufioState.WriteString at h ⊢
  by_cases he : (bufioWriteStringLoop sink (s.length + 2) b s 0).1.err = none
  · simp only [he, ne_eq, not_true_eq_false, if_false]
    have h1 := writeStringLoop_exit sink (s.length + 2) b s 0 (by split <;> omega) he
    have h2 := writeStringLoop_count sink (s.length + 2) b s 0
    simp only [Nat.min_eq_right h1]
    omega
  · simp only [he, ne_eq, not_false_eq_true, if_true] at h

theorem goBufio_lawful {S : Type} (sink : IoWriter S) : (goBufio sink).Lawful :=
  ⟨fun w s h => bufio_writeString_full sink w s h, fun w p h => bufio_write_full sink w p h⟩

theorem call_reports {W K : Type} (B : BufioWriter W K) (H : WriterHelpers W)
    (bw : bufWriter W) (h : bw.err = none) (c : WriteCall) :
    (bw.call B H c).err = reportedError B H bw c := by
  cases c with
  | WriteByte b =>
    simp only [bufWriter.call, bufWriter.WriteByte, h, ne_eq, not_true_eq_false, if_false,
      reportedError]
    split <;> rfl
  | WriteString s =>
    simp [bufWriter.call, bufWriter.WriteString, h, reportedError]
  | Write p =>
    simp [bufWriter.call, bufWriter.Write, h, reportedError]
  | WriteBytesSize size =>
    simp [bufWriter.call, bufWriter.WriteBytesSize, h, reportedError]
  | EncodeAndWriteText src enc =>
    simp [bufWriter.call, bufWriter.EncodeAndWriteText, h, reportedError]

theorem direct_of_err {W K : Type} (B : BufioWriter W K) (bw : bufWriter W)
    (h : bw.err ≠ none) (c : DirectCall) : bw.direct B c = bw := by
  cases c <;>
    simp [bufWriter.direct, bufWriter.WriteByte, bufWriter.WriteString, bufWriter.Write, h]

theorem directs_of_err {W K : Type} (B : BufioWriter W K) (bw : bufWriter W)
    (h : bw.err ≠ none) :
    ∀ script : List DirectCall, script.foldl (bufWriter.direct B) bw = bw := by
  intro script
  induction script with
  | nil => rfl
  | cons c t ih => rw [List.foldl_cons, direct_of_err B bw h c, ih]

theorem direct_ok {W K : Type} (B : BufioWriter W K) (hB : B.Lawful) (bw : bufWriter W)
    (h : bw.err = none) (c : DirectCall) (hok : (bw.direct B c).err = none) :
    bw.direct B c = ⟨none, B.step bw.w c, bw.written + c.passed⟩ := by
  cases c with
  | WriteByte b =>
    simp only [bufWriter.direct, bufWriter.WriteByte, h, ne_eq, not_true_eq_false, if_false]
      at hok ⊢
    by_cases he : (B.WriteByte bw.w b).2 = none
    · simp [he, BufioWriter.step, DirectCall.passed]
    · simp [he] at hok
  | WriteString s =>
    simp only [bufWriter.direct, bufWriter.WriteString, h, ne_eq, not_true_eq_false, if_false]
      at hok ⊢
    simp [BufioWriter.step, DirectCall.passed, hB.1 bw.w s hok, hok]
  | Write p =>
    simp only [bufWriter.direct, bufWriter.Write, h, ne_eq, not_true_eq_false, if_false]
      at hok ⊢
    simp [BufioWriter.step, DirectCall.passed, hB.2 bw.w p hok, hok]

theorem directs_ok {W K : Type} (B : BufioWriter W K) (hB : B.Lawful) :
    ∀ (script : List DirectCall) (bw : bufWriter W), bw.err = none →
      (script.foldl (bufWriter.direct B) bw).err = none →
      script.foldl (bufWriter.direct B) bw =
        ⟨none, script.foldl B.step bw.w, bw.written + passedTotal script⟩ := by
  intro script
  induction script with
  | nil =>
    intro bw h _
    cases bw
    simp only at h
    simp [passedTotal, h]
  | cons c t ih =>
    intro bw h hok
    rw [List.foldl_cons] at hok ⊢
    by_cases he : (bw.direct B c).err = none
    · have h1 := direct_ok B hB bw h c he
      rw [ih (bw.direct B c) he hok]
      rw [h1]
      simp only [List.foldl_cons, passedTotal, Nat.add_assoc]
    · rw [directs_of_err B (bw.direct B c) he t] at hok
      exact absurd hok he

theorem call_ok {W K : Type} (B : BufioWriter W K) (hB : B.Lawful) (sc : HelperScripts)
    (bw : bufWriter W) (h : bw.err = none) (c : WriteCall) (hok : callOk B sc bw c = true) :
    bw.call B (scriptedHelpers B sc) c =
      ⟨none, (c.expand sc).foldl B.step bw.w, bw.written + passedTotal (c.expand sc)⟩ := by
  cases c with
  | WriteByte b =>
    have h1 : (bw.direct B (.WriteByte b)).err = none := by simpa [callOk] using hok
    simpa [bufWriter.call, bufWriter.direct, WriteCall.expand, passedTotal] using
      direct_ok B hB bw h (.WriteByte b) h1
  | WriteString s =>
    have h1 : (bw.direct B (.WriteString s)).err = none := by simpa [callOk] using hok
    simpa [bufWriter.call, bufWriter.direct, WriteCall.expand, passedTotal] using
      direct_ok B hB bw h (.WriteString s) h1
  | Write p =>
    have h1 : (bw.direct B (.Write p)).err = none := by simpa [callOk] using hok
    simpa [bufWriter.call, bufWriter.direct, WriteCall.expand, passedTotal] using
      direct_ok B hB bw h (.Write p) h1
  | WriteBytesSize size =>
    simp only [callOk, Bool.and_eq_true, decide_eq_true_eq] at hok
    have h1 := directs_ok B hB (sc.writeBytesSize size).1 bw h hok.1
    simp only [bufWriter.call, bufWriter.WriteBytesSize, h, ne_eq, not_true_eq_false, if_false,
      scriptedHelpers, WriteCall.expand, h1, hok.2]
  | EncodeAndWriteText src enc =>
    simp only [callOk, Bool.and_eq_true, decide_eq_true_eq] at hok
    have h1 := directs_ok B hB (sc.encodeWriteText src enc).1 bw h hok.1
    simp only [bufWriter.call, bufWriter.EncodeAndWriteText, h, ne_eq, not_true_eq_false,
      if_false, scriptedHelpers, WriteCall.expand, h1, hok.2]

theorem passedTotal_append (l₁ l₂ : List DirectCall) :
    passedTotal (l₁ ++ l₂) = passedTotal l₁ + passedTotal l₂ := by
  induction l₁ with
  | nil => simp [passedTotal]
  | cons c t ih =>
    show c.passed + passedTotal (t ++ l₂) = c.passed + passedTotal t + passedTotal l₂
    rw [ih, Nat.add_assoc]

theorem calls_ok {W K : Type} (B : BufioWriter W K) (hB : B.Lawful) (sc : HelperScripts) :
    ∀ (calls : List WriteCall) (bw : bufWriter W), bw.err = none →
      callsOk B sc bw calls = true →
      calls.foldl (bufWriter.call B (scriptedHelpers B sc)) bw =
        ⟨none, (expandCalls sc calls).foldl B.step bw.w,
          bw.written + passedTotal (expandCalls sc calls)⟩ := by
  intro calls
  induction calls with
  | nil =>
    intro bw h _
    cases bw
    simp only at h
    simp [expandCalls, passedTotal, h]
  | cons c t ih =>
    intro bw h hok
    simp only [callsOk, Bool.and_eq_true] at hok
    have h1 := call_ok B hB sc bw h c hok.1
    rw [List.foldl_cons, ih _ (by rw [h1]) hok.2, h1]
    simp only [expandCalls, List.foldl_append, passedTotal_append, Nat.add_assoc]

/-- C20. A write call that reports an error, made on a `bufWriter` that held
none, leaves that error in it; and once a `bufWriter` holds an error, every
later `WriteByte`, `WriteString`, `Write`, `WriteBytesSize` and
`EncodeAndWriteText` call leaves it as it is (nothing reaches the underlying
writer, `Written()` stays, `Write` returns 0 and the error), and `Flush`, then
or after any such calls, returns that error. After a `Reset`, as long as no
write has failed, the underlying writer has been handed exactly the direct
calls the write calls come to (for `WriteBytesSize` and `EncodeAndWriteText`,
those their helpers make), no error is held, and `Written()` is the total
number of bytes passed in them. -/
theorem bufWriter_sticky {W K : Type} (B : BufioWriter W K) (hB : B.Lawful)
    (H : WriterHelpers W) (sc : HelperScripts) :
    (∀ (bw : bufWriter W) (c : WriteCall) (e : Error), bw.err = none →
      reportedError B H bw c = some e → (bw.call B H c).err = some e) ∧
    (∀ (bw : bufWriter W) (e : Error), bw.err = some e →
      (∀ calls : List WriteCall, calls.foldl (bufWriter.call B H) bw = bw) ∧
      (∀ p : Bytes, bw.Write B p = (bw, 0, some e)) ∧
      (∀ calls : List WriteCall,
        ((calls.foldl (bufWriter.call B H) bw).Flush B).2 = some e)) ∧
    (∀ (bw : bufWriter W) (sink : K) (calls : List WriteCall),
      callsOk B sc (bw.Reset B sink) calls = true →
      (calls.foldl (bufWriter.call B (scriptedHelpers B sc)) (bw.Reset B sink)).Written =
          passedTotal (expandCalls sc calls) ∧
        (calls.foldl (bufWriter.call B (scriptedHelpers B sc)) (bw.Reset B sink)).err = none ∧
        (calls.foldl (bufWriter.call B (scriptedHelpers B sc)) (bw.Reset B sink)).w =
          (expandCalls sc calls).foldl B.step (B.Reset bw.w sink)) := by
  refine ⟨?_, ?_, ?_⟩
  · intro bw c e h hrep
    rw [call_reports B H bw h c, hrep]
  · intro bw e h
    have hne : bw.err ≠ none := by rw [h]; simp
    refine ⟨calls_of_err B H bw hne, ?_, ?_⟩
    · intro p
      simp [bufWriter.Write, h]
    · intro calls
      rw [calls_of_err B H bw hne calls]
      simp [bufWriter.Flush, h]
  · intro bw sink calls hok
    have h := calls_ok B hB sc calls (bw.Reset B sink) rfl hok
    rw [h]
    simp [bufWriter.Written, bufWriter.Reset]

theorem largeWrite_length : largeWrite.length = 4097 := List.length_replicate _ _

theorem largeWrite_fails :
    reportedError (goBufio roomSink) (scriptedHelpers (goBufio roomSink) plainScripts)
      sampleWriter (.Write largeWrite) = some (Error.other 1) := by
  simp [reportedError, goBufio, BufioState.Write, bufioWriteLoop, BufioState.Available,
    defaultBufSize, largeWrite_length, roomSink, sampleWriter]

/-- An instance of C20: on a sink with room for 10 bytes a `Write` of 4097
bytes goes past the buffer and fails; the error is held, four later write calls
change nothing and `Flush` returns it. After a `Reset` to a sink with room for
100 bytes, five write calls that pass 1, 2, 1, 4 and 1 bytes leave `Written()`
at 9. -/
theorem bufWriter_sticky_witness :
    (sampleWriter.call (goBufio roomSink) (scriptedHelpers (goBufio roomSink) plainScripts)
        (.Write largeWrite)).err = some (Error.other 1) ∧
    [WriteCall.WriteByte 5, .WriteString [6, 7], .WriteBytesSize 3,
        .EncodeAndWriteText [8] EncodingUTF8].foldl
        (bufWriter.call (goBufio roomSink) (scriptedHelpers (goBufio roomSink) plainScripts))
        (sampleWriter.call (goBufio roomSink)
          (scriptedHelpers (goBufio roomSink) plainScripts) (.Write largeWrite)) =
      sampleWriter.call (goBufio roomSink) (scriptedHelpers (goBufio roomSink) plainScripts)
        (.Write largeWrite) ∧
    ((sampleWriter.call (goBufio roomSink) (scriptedHelpers (goBufio roomSink) plainScripts)
        (.Write largeWrite)).Flush (goBufio roomSink)).2 = some (Error.other 1) ∧
    ([WriteCall.WriteByte 1, .WriteString [2, 3], .EncodeAndWriteText [4] EncodingUTF8,
        .WriteBytesSize 257, .Write [5]].foldl
        (bufWriter.call (goBufio roomSink) (scriptedHelpers (goBufio roomSink) plainScripts))
        (sampleWriter.Reset (goBufio roomSink) ([], 100))).Written = 9 :=
  have t := bufWriter_sticky (goBufio roomSink) (goBufio_lawful roomSink)
    (scriptedHelpers (goBufio roomSink) plainScripts) plainScripts
  have h1 := t.1 sampleWriter (.Write largeWrite) (Error.other 1) rfl largeWrite_fails
  ⟨h1, (t.2.1 _ _ h1).1 _, (t.2.1 _ _ h1).2.2 [],
    (t.2.2 sampleWriter ([], 100)
      [.WriteByte 1, .WriteString [2, 3], .EncodeAndWriteText [4] EncodingUTF8,
        .WriteBytesSize 257, .Write [5]] (by decide)).1.trans (by decide)⟩

end Id3v2
